import Mathlib

/-!
# Dynamic Cartesian product of Lie groups

A shallow embedding of `src/multibody/liegroup/cartesian-product-variant.hpp`
(`CartesianProductOperationVariantTpl`) and theorems about it.

Conventions of the embedding:

* an Eigen column vector is a `List Scalar`; `Scalar` is the template parameter
  and stays a type parameter here (only `0` and `+` are used on it);
* `Index` values (dimensions, offsets) are natural numbers: every handle reports
  non-negative dimensions and the composite only ever adds them up, machine
  overflow of the totals is not modelled;
* an `eigen_assert` that fires (a block out of range, an assignment between
  vectors of different sizes) is a failed call: `none`, or `Except.error`
  carrying the output buffer as it was when the assertion fired;
* the random generators' hidden state is passed explicitly (`Gen`).
-/

namespace pinocchio

/-- Modelled from the spec: the type-erased Lie group handle `LieGroupGeneric`
together with the free functions `::pinocchio::nq`, `nv`, `name`, `neutral`,
`difference`, `integrate`, `squaredDistance`, `random`, `randomConfiguration`
that forward to it. Their declarations (`liegroup-variant-visitors.hpp`) are not
part of the sources at hand; the capability set and the vector sizes are those of
section 6 of the specification. An operation that writes an output block is
given as the function from its inputs to the coefficients it writes. -/
structure LieGroupGeneric (Scalar Gen : Type) where
  nq : Nat
  nv : Nat
  name : String
  neutral : List Scalar
  difference : List Scalar → List Scalar → List Scalar
  integrate : List Scalar → List Scalar → List Scalar
  squaredDistance : List Scalar → List Scalar → Scalar
  random : Gen → List Scalar × Gen
  randomConfiguration : Gen → List Scalar → List Scalar → List Scalar × Gen
  neutral_size : neutral.length = nq
  difference_size : ∀ q0 q1 : List Scalar, q0.length = nq → q1.length = nq →
    (difference q0 q1).length = nv
  integrate_size : ∀ q v : List Scalar, q.length = nq → v.length = nv →
    (integrate q v).length = nq
  random_size : ∀ g : Gen, (random g).1.length = nq
  randomConfiguration_size : ∀ (g : Gen) (lo hi : List Scalar), lo.length = nq →
    hi.length = nq → (randomConfiguration g lo hi).1.length = nq

section Eigen

variable {Scalar : Type}

/-- Read access `v.segment(start, n)`: the block of `n` coefficients from
position `start`; Eigen asserts `start + n <= v.size()`. -/
def segment (v : List Scalar) (start n : Nat) : Option (List Scalar) :=
  if start + n ≤ v.length then some ((v.drop start).take n) else none

/-- Write access `v.segment(start, n) = x`: Eigen asserts that the block is in
range and that `x` has the block's size. -/
def assignSegment (v : List Scalar) (start n : Nat) (x : List Scalar) :
    Option (List Scalar) :=
  if start + n ≤ v.length ∧ x.length = n then
    some (v.take start ++ x ++ v.drop (start + n))
  else none

/-- Write access `v.head(n) = x`, that is `v.segment(0, n) = x`. -/
def assignHead (v : List Scalar) (n : Nat) (x : List Scalar) : Option (List Scalar) :=
  assignSegment v 0 n x

/-- Write access `v.tail(n) = x`, that is `v.segment(v.size() - n, n) = x`;
Eigen asserts `n <= v.size()`. -/
def assignTail (v : List Scalar) (n : Nat) (x : List Scalar) : Option (List Scalar) :=
  if n ≤ v.length then assignSegment v (v.length - n) n x else none

/-- The call `v.conservativeResize(n)`: the first `min n v.size()` coefficients
are kept. Eigen leaves the new coefficients uninitialised; they are `0` here. -/
def conservativeResize [Zero Scalar] (v : List Scalar) (n : Nat) : List Scalar :=
  v.take n ++ List.replicate (n - v.length) 0

/-- The call `v.resize(n)`: nothing happens when the size is already `n`,
otherwise the storage is reallocated (uninitialised in Eigen, `0` here). -/
def resize [Zero Scalar] (v : List Scalar) (n : Nat) : List Scalar :=
  if v.length = n then v else List.replicate n 0

end Eigen

/-- The data members of `CartesianProductOperationVariantTpl`. -/
structure CartesianProductOperationVariantTpl (Scalar Gen : Type) where
  liegroups : List (LieGroupGeneric Scalar Gen)
  m_nq : Nat
  m_nv : Nat
  lg_nqs : List Nat
  lg_nvs : List Nat
  m_name : String
  m_neutral : List Scalar

namespace CartesianProductOperationVariantTpl

variable {Scalar Gen : Type}

/-- Default constructor: `m_nq(0), m_nv(0), lg_nqs(0), lg_nvs(0), m_neutral(0)`,
the other members default-initialised. -/
def ctor : CartesianProductOperationVariantTpl Scalar Gen :=
  { liegroups := [], m_nq := 0, m_nv := 0, lg_nqs := [], lg_nvs := [],
    m_name := "", m_neutral := [] }

/-- The member function `append`. The two Eigen assertions of its last line (the
tail block is in range, `neutral(lg)` has `lg_nq` coefficients) cannot fire,
as the proof term in the last field shows. -/
def append [Zero Scalar] (C : CartesianProductOperationVariantTpl Scalar Gen)
    (lg : LieGroupGeneric Scalar Gen) : CartesianProductOperationVariantTpl Scalar Gen :=
  let liegroups := C.liegroups ++ [lg]
  let lg_nq := lg.nq
  let lg_nqs := C.lg_nqs ++ [lg_nq]
  let m_nq := C.m_nq + lg_nq
  let lg_nv := lg.nv
  let lg_nvs := C.lg_nvs ++ [lg_nv]
  let m_nv := C.m_nv + lg_nv
  let m_name := if liegroups.length > 1 then C.m_name ++ " x " else C.m_name
  let m_name := m_name ++ lg.name
  let m_neutral := conservativeResize C.m_neutral m_nq
  { liegroups := liegroups, m_nq := m_nq, m_nv := m_nv, lg_nqs := lg_nqs,
    lg_nvs := lg_nvs, m_name := m_name,
    m_neutral := (assignTail m_neutral lg_nq lg.neutral).get (by
      have hlen : m_neutral.length = C.m_nq + lg.nq := by
        simp only [m_neutral, m_nq, lg_nq, conservativeResize, List.length_append,
          List.length_take, List.length_replicate]
        omega
      simp [assignTail, assignSegment, hlen, lg_nq, lg.neutral_size]) }

/-- Constructor with one single Lie group. -/
def ctor1 [Zero Scalar] (lg : LieGroupGeneric Scalar Gen) :
    CartesianProductOperationVariantTpl Scalar Gen :=
  append ctor lg

/-- Constructor with two Lie groups. -/
def ctor2 [Zero Scalar] (lg1 lg2 : LieGroupGeneric Scalar Gen) :
    CartesianProductOperationVariantTpl Scalar Gen :=
  append (append ctor lg1) lg2

/-- The member `operator*`. The result is `none` when one of the two block
assignments into `res.m_neutral` trips its size assertion. -/
def product [Zero Scalar] (self other : CartesianProductOperationVariantTpl Scalar Gen) :
    Option (CartesianProductOperationVariantTpl Scalar Gen) :=
  let res : CartesianProductOperationVariantTpl Scalar Gen := ctor
  let res_liegroups := (res.liegroups ++ self.liegroups) ++ other.liegroups
  let res_lg_nqs := (res.lg_nqs ++ self.lg_nqs) ++ other.lg_nqs
  let res_lg_nvs := (res.lg_nvs ++ self.lg_nvs) ++ other.lg_nvs
  let res_m_nq := self.m_nq + other.m_nq
  let res_m_nv := self.m_nv + other.m_nv
  let res_m_name := if self.liegroups.length > 0 then self.m_name else res.m_name
  let res_m_name :=
    if other.liegroups.length > 0 then (res_m_name ++ " x ") ++ other.m_name
    else res_m_name
  let res_m_neutral := resize res.m_neutral res_m_nq
  match assignHead res_m_neutral self.m_nq self.m_neutral with
  | none => none
  | some n1 =>
    match assignTail n1 other.m_nq other.m_neutral with
    | none => none
    | some n2 =>
      some { liegroups := res_liegroups, m_nq := res_m_nq, m_nv := res_m_nv,
             lg_nqs := res_lg_nqs, lg_nvs := res_lg_nvs, m_name := res_m_name,
             m_neutral := n2 }

/-- Accessor `nq()`. -/
def nq (C : CartesianProductOperationVariantTpl Scalar Gen) : Nat := C.m_nq

/-- Accessor `nv()`. -/
def nv (C : CartesianProductOperationVariantTpl Scalar Gen) : Nat := C.m_nv

/-- Accessor `name()`. -/
def name (C : CartesianProductOperationVariantTpl Scalar Gen) : String := C.m_name

/-- Accessor `neutral()`. -/
def neutral (C : CartesianProductOperationVariantTpl Scalar Gen) : List Scalar :=
  C.m_neutral

/-- One iteration of the loop of `difference_impl` before the offsets advance:
the three blocks are taken, then the handle writes its output block. -/
def difference_step (lg : LieGroupGeneric Scalar Gen) (nq nv id_q id_v : Nat)
    (q0 q1 d : List Scalar) : Option (List Scalar) :=
  match segment q0 id_q nq, segment q1 id_q nq with
  | some a, some b => assignSegment d id_v nv (lg.difference a b)
  | _, _ => none

/-- The `for` loop of `difference_impl`, from entry `k` on: the arguments are
`liegroups`, `lg_nqs`, `lg_nvs` from index `k`, the running offsets and `d`.
Reading `lg_nqs[k]` or `lg_nvs[k]` past the end is a failure. -/
def difference_loop (q0 q1 : List Scalar) :
    List (LieGroupGeneric Scalar Gen) → List Nat → List Nat → Nat → Nat →
      List Scalar → Except (List Scalar) (List Scalar)
  | [], _, _, _, _, d => .ok d
  | lg :: lgs, nq :: nqs, nv :: nvs, id_q, id_v, d =>
    match difference_step lg nq nv id_q id_v q0 q1 d with
    | some d1 => difference_loop q0 q1 lgs nqs nvs (id_q + nq) (id_v + nv) d1
    | none => .error d
  | _ :: _, _, _, _, _, d => .error d

/-- The member `difference_impl`; the result is the content of `d` afterwards. -/
def difference_impl (C : CartesianProductOperationVariantTpl Scalar Gen)
    (q0 q1 d : List Scalar) : Except (List Scalar) (List Scalar) :=
  difference_loop q0 q1 C.liegroups C.lg_nqs C.lg_nvs 0 0 d

/-- One iteration of the loop of `integrate_impl` before the offsets advance. -/
def integrate_step (lg : LieGroupGeneric Scalar Gen) (nq nv id_q id_v : Nat)
    (q v qout : List Scalar) : Option (List Scalar) :=
  match segment q id_q nq, segment v id_v nv with
  | some a, some b => assignSegment qout id_q nq (lg.integrate a b)
  | _, _ => none

/-- The `for` loop of `integrate_impl`, from entry `k` on. -/
def integrate_loop (q v : List Scalar) :
    List (LieGroupGeneric Scalar Gen) → List Nat → List Nat → Nat → Nat →
      List Scalar → Except (List Scalar) (List Scalar)
  | [], _, _, _, _, qout => .ok qout
  | lg :: lgs, nq :: nqs, nv :: nvs, id_q, id_v, qout =>
    match integrate_step lg nq nv id_q id_v q v qout with
    | some qout1 => integrate_loop q v lgs nqs nvs (id_q + nq) (id_v + nv) qout1
    | none => .error qout
  | _ :: _, _, _, _, _, qout => .error qout

/-- The member `integrate_impl`; the result is the content of `qout` afterwards. -/
def integrate_impl (C : CartesianProductOperationVariantTpl Scalar Gen)
    (q v qout : List Scalar) : Except (List Scalar) (List Scalar) :=
  integrate_loop q v C.liegroups C.lg_nqs C.lg_nvs 0 0 qout

/-- The `for` loop of `squaredDistance_impl`, from entry `k` on, with the running
offset and the accumulator `d2`. -/
def squaredDistance_loop [Add Scalar] (q0 q1 : List Scalar) :
    List (LieGroupGeneric Scalar Gen) → List Nat → Nat → Scalar → Except Scalar Scalar
  | [], _, _, d2 => .ok d2
  | lg :: lgs, nq :: nqs, id_q, d2 =>
    match segment q0 id_q nq, segment q1 id_q nq with
    | some a, some b =>
      squaredDistance_loop q0 q1 lgs nqs (id_q + nq) (d2 + lg.squaredDistance a b)
    | _, _ => .error d2
  | _ :: _, [], _, d2 => .error d2

/-- What `squaredDistance_impl` leaves when control reaches its closing brace:
the local accumulator `d2`, and the value handed to the caller. -/
structure SquaredDistanceExit (Scalar : Type) where
  d2 : Scalar
  returned : Option Scalar

/-- The member `squaredDistance_impl`: `d2 = 0`, the loop, and then the end of
the body. There is no `return` statement, so no value is handed to the caller. -/
def squaredDistance_impl [Zero Scalar] [Add Scalar]
    (C : CartesianProductOperationVariantTpl Scalar Gen) (q0 q1 : List Scalar) :
    Except Scalar (SquaredDistanceExit Scalar) :=
  match squaredDistance_loop q0 q1 C.liegroups C.lg_nqs 0 0 with
  | .ok d2 => .ok { d2 := d2, returned := none }
  | .error d2 => .error d2

/-- One iteration of the loop of `random_impl` before the offset advances. -/
def random_step (lg : LieGroupGeneric Scalar Gen) (nq id_q : Nat)
    (s : List Scalar × Gen) : Option (List Scalar × Gen) :=
  match assignSegment s.1 id_q nq (lg.random s.2).1 with
  | some qout1 => some (qout1, (lg.random s.2).2)
  | none => none

/-- The `for` loop of `random_impl`, from entry `k` on; the state is `qout` and
the generator. -/
def random_loop :
    List (LieGroupGeneric Scalar Gen) → List Nat → Nat → List Scalar × Gen →
      Except (List Scalar × Gen) (List Scalar × Gen)
  | [], _, _, s => .ok s
  | lg :: lgs, nq :: nqs, id_q, s =>
    match random_step lg nq id_q s with
    | some s1 => random_loop lgs nqs (id_q + nq) s1
    | none => .error s
  | _ :: _, [], _, s => .error s

/-- The member `random_impl`. -/
def random_impl (C : CartesianProductOperationVariantTpl Scalar Gen)
    (g : Gen) (qout : List Scalar) : Except (List Scalar × Gen) (List Scalar × Gen) :=
  random_loop C.liegroups C.lg_nqs 0 (qout, g)

/-- One iteration of the loop of `randomConfiguration_impl`. -/
def randomConfiguration_step (lg : LieGroupGeneric Scalar Gen) (nq id_q : Nat)
    (lower upper : List Scalar) (s : List Scalar × Gen) : Option (List Scalar × Gen) :=
  match segment lower id_q nq, segment upper id_q nq with
  | some lo, some hi =>
    match assignSegment s.1 id_q nq (lg.randomConfiguration s.2 lo hi).1 with
    | some qout1 => some (qout1, (lg.randomConfiguration s.2 lo hi).2)
    | none => none
  | _, _ => none

/-- The `for` loop of `randomConfiguration_impl`, from entry `k` on. -/
def randomConfiguration_loop (lower upper : List Scalar) :
    List (LieGroupGeneric Scalar Gen) → List Nat → Nat → List Scalar × Gen →
      Except (List Scalar × Gen) (List Scalar × Gen)
  | [], _, _, s => .ok s
  | lg :: lgs, nq :: nqs, id_q, s =>
    match randomConfiguration_step lg nq id_q lower upper s with
    | some s1 => randomConfiguration_loop lower upper lgs nqs (id_q + nq) s1
    | none => .error s
  | _ :: _, [], _, s => .error s

/-- The member `randomConfiguration_impl`. -/
def randomConfiguration_impl (C : CartesianProductOperationVariantTpl Scalar Gen)
    (g : Gen) (lower upper qout : List Scalar) :
    Except (List Scalar × Gen) (List Scalar × Gen) :=
  randomConfiguration_loop lower upper C.liegroups C.lg_nqs 0 (qout, g)

/-- The composites a program can hold: the members are protected, so a value is
made by a constructor, grown by `append`, or returned by `operator*`. -/
inductive Reachable [Zero Scalar] : CartesianProductOperationVariantTpl Scalar Gen → Prop
  | ctor : Reachable ctor
  | append {C : CartesianProductOperationVariantTpl Scalar Gen}
      (lg : LieGroupGeneric Scalar Gen) : Reachable C → Reachable (C.append lg)
  | product {A B R : CartesianProductOperationVariantTpl Scalar Gen} :
      Reachable A → Reachable B → A.product B = some R → Reachable R

/-- The composite `ctor` grown by `append`-ing the handles of `hs` in order. -/
def build [Zero Scalar] (hs : List (LieGroupGeneric Scalar Gen)) :
    CartesianProductOperationVariantTpl Scalar Gen :=
  hs.foldl append ctor

/-- The bookkeeping invariant of the data members: the cached dimension lists
are those of the handles, the totals are their sums, and `m_neutral` is the
handles' neutral elements one after the other. -/
structure Consistent (C : CartesianProductOperationVariantTpl Scalar Gen) : Prop where
  nqs : C.lg_nqs = C.liegroups.map (fun lg => lg.nq)
  nvs : C.lg_nvs = C.liegroups.map (fun lg => lg.nv)
  nq_sum : C.m_nq = C.lg_nqs.sum
  nv_sum : C.m_nv = C.lg_nvs.sum
  neutral_eq : C.m_neutral = (C.liegroups.map (fun lg => lg.neutral)).flatten

/-- Configuration offset `id_q` of entry `k`: the cached `nq` of the entries
before it, added up. -/
def offset_q (C : CartesianProductOperationVariantTpl Scalar Gen) (k : Nat) : Nat :=
  (C.lg_nqs.take k).sum

/-- Tangent offset `id_v` of entry `k`. -/
def offset_v (C : CartesianProductOperationVariantTpl Scalar Gen) (k : Nat) : Nat :=
  (C.lg_nvs.take k).sum

end CartesianProductOperationVariantTpl

/-! ### What the dispatch loops compute, entry after entry -/

section Blocks

variable {Scalar Gen : Type}

/-- What the loop of `difference_impl` writes, entry after entry, when it is
handed the remaining coefficients of `q0` and `q1`: each handle's difference of
the leading blocks, one after the other. -/
def differenceBlocks :
    List (LieGroupGeneric Scalar Gen) → List Scalar → List Scalar → List Scalar
  | [], _, _ => []
  | lg :: lgs, q0, q1 =>
    lg.difference (q0.take lg.nq) (q1.take lg.nq)
      ++ differenceBlocks lgs (q0.drop lg.nq) (q1.drop lg.nq)

/-- What the loop of `integrate_impl` writes, entry after entry, when it is handed
the remaining coefficients of `q` and `v`. -/
def integrateBlocks :
    List (LieGroupGeneric Scalar Gen) → List Scalar → List Scalar → List Scalar
  | [], _, _ => []
  | lg :: lgs, q, v =>
    lg.integrate (q.take lg.nq) (v.take lg.nv)
      ++ integrateBlocks lgs (q.drop lg.nq) (v.drop lg.nv)

/-- The value the loop of `squaredDistance_impl` accumulates from `d2`, when it is
handed the remaining coefficients of `q0` and `q1`. -/
def squaredDistanceSum [Add Scalar] :
    List (LieGroupGeneric Scalar Gen) → List Scalar → List Scalar → Scalar → Scalar
  | [], _, _, d2 => d2
  | lg :: lgs, q0, q1, d2 =>
    squaredDistanceSum lgs (q0.drop lg.nq) (q1.drop lg.nq)
      (d2 + lg.squaredDistance (q0.take lg.nq) (q1.take lg.nq))

/-- What the loop of `random_impl` writes, entry after entry, and the generator
it leaves: each handle samples in turn, from the generator the one before left. -/
def randomBlocks : List (LieGroupGeneric Scalar Gen) → Gen → List Scalar × Gen
  | [], g => ([], g)
  | lg :: lgs, g =>
    ((lg.random g).1 ++ (randomBlocks lgs (lg.random g).2).1,
      (randomBlocks lgs (lg.random g).2).2)

/-- What the loop of `randomConfiguration_impl` writes, entry after entry, and
the generator it leaves, when it is handed the remaining coefficients of `lower`
and `upper`. -/
def randomConfigurationBlocks :
    List (LieGroupGeneric Scalar Gen) → List Scalar → List Scalar → Gen →
      List Scalar × Gen
  | [], _, _, g => ([], g)
  | lg :: lgs, lower, upper, g =>
    ((lg.randomConfiguration g (lower.take lg.nq) (upper.take lg.nq)).1
        ++ (randomConfigurationBlocks lgs (lower.drop lg.nq) (upper.drop lg.nq)
              (lg.randomConfiguration g (lower.take lg.nq) (upper.take lg.nq)).2).1,
      (randomConfigurationBlocks lgs (lower.drop lg.nq) (upper.drop lg.nq)
              (lg.randomConfiguration g (lower.take lg.nq) (upper.take lg.nq)).2).2)

end Blocks

/-! ### Sample handles, used to run the definitions on concrete inputs -/

/-- A flat vector space of dimension `n` with integer coefficients:
`difference q0 q1 = q1 - q0`, `integrate q v = q + v`. Its generator is a
counter. -/
def vectorSpace (n : Nat) : LieGroupGeneric Int Nat where
  nq := n
  nv := n
  name := "R^" ++ toString n
  neutral := List.replicate n 0
  difference := fun q0 q1 => List.zipWith (fun a b => b - a) q0 q1
  integrate := fun q v => List.zipWith (fun a b => a + b) q v
  squaredDistance := fun q0 q1 =>
    (List.zipWith (fun a b => (b - a) * (b - a)) q0 q1).sum
  random := fun g => (List.replicate n (Int.ofNat g), g + 1)
  randomConfiguration := fun g lo _ => (lo, g + 1)
  neutral_size := by simp
  difference_size := by intro q0 q1 h0 h1; simp [h0, h1]
  integrate_size := by intro q v h0 h1; simp [h0, h1]
  random_size := by intro g; simp
  randomConfiguration_size := by intro g lo hi h0 _; simpa using h0

/-- A handle with two configuration coefficients and one tangent coefficient
(the shape of a planar rotation), with integer coefficients. -/
def planar : LieGroupGeneric Int Nat where
  nq := 2
  nv := 1
  name := "SO(2)"
  neutral := [1, 0]
  difference := fun q0 q1 =>
    match q0, q1 with
    | [c0, s0], [c1, s1] => [c0 * s1 - s0 * c1]
    | _, _ => [0]
  integrate := fun q v =>
    match q, v with
    | [c, s], [w] => [c - w * s, s + w * c]
    | _, _ => [1, 0]
  squaredDistance := fun q0 q1 =>
    match q0, q1 with
    | [c0, s0], [c1, s1] => (c0 * s1 - s0 * c1) * (c0 * s1 - s0 * c1)
    | _, _ => 0
  random := fun g => ([1, 0], g + 1)
  randomConfiguration := fun g _ _ => ([1, 0], g + 1)
  neutral_size := rfl
  difference_size := by intro q0 q1 _ _; dsimp only; split <;> rfl
  integrate_size := by intro q v _ _; dsimp only; split <;> rfl
  random_size := by intro g; rfl
  randomConfiguration_size := by intro g lo hi _ _; rfl

/-- The composite constructed from `planar` and `vectorSpace 3`: five
configuration coefficients and four tangent coefficients. -/
def planarTimesSpace : CartesianProductOperationVariantTpl Int Nat :=
  CartesianProductOperationVariantTpl.ctor2 planar (vectorSpace 3)

end pinocchio

/-! ## Lemmas -/

namespace pinocchio

section EigenLemmas

variable {Scalar : Type}

theorem segment_eq_some {v : List Scalar} {start n : Nat} (h : start + n ≤ v.length) :
    segment v start n = some ((v.drop start).take n) := by
  simp [segment, h]

theorem segment_eq_none {v : List Scalar} {start n : Nat} (h : v.length < start + n) :
    segment v start n = none := by
  simp [segment, Nat.not_le.mpr h]

theorem segment_length {v a : List Scalar} {start n : Nat}
    (h : segment v start n = some a) : a.length = n := by
  unfold segment at h
  split at h
  · injection h with h
    subst h
    simp only [List.length_take, List.length_drop]
    omega
  · cases h

theorem assignSegment_eq_some {v x : List Scalar} {start n : Nat}
    (h : start + n ≤ v.length) (hx : x.length = n) :
    assignSegment v start n x = some (v.take start ++ x ++ v.drop (start + n)) := by
  simp [assignSegment, h, hx]

theorem assignSegment_eq_none {v : List Scalar} {start n : Nat} (x : List Scalar)
    (h : v.length < start + n) : assignSegment v start n x = none := by
  simp [assignSegment, Nat.not_le.mpr h]

theorem assignSegment_length {v x w : List Scalar} {start n : Nat}
    (h : assignSegment v start n x = some w) : w.length = v.length := by
  unfold assignSegment at h
  split at h
  · rename_i hc
    injection h with h
    subst h
    simp only [List.length_append, List.length_take, List.length_drop]
    omega
  · cases h

theorem resize_nil [Zero Scalar] (n : Nat) :
    resize ([] : List Scalar) n = List.replicate n 0 := by
  unfold resize
  split
  · rename_i h
    simp only [List.length_nil] at h
    subst h
    rfl
  · rfl

theorem conservativeResize_of_length [Zero Scalar] {v : List Scalar} {m : Nat}
    (h : v.length = m) (n : Nat) :
    conservativeResize v (m + n) = v ++ List.replicate n 0 := by
  unfold conservativeResize
  rw [List.take_of_length_le (by omega)]
  congr 2
  omega

end EigenLemmas

namespace CartesianProductOperationVariantTpl

variable {Scalar Gen : Type}

/-! ### `append` -/

theorem consistent_ctor : Consistent (ctor : CartesianProductOperationVariantTpl Scalar Gen) :=
  ⟨rfl, rfl, rfl, rfl, rfl⟩

theorem Consistent.neutral_length {C : CartesianProductOperationVariantTpl Scalar Gen}
    (h : Consistent C) : C.m_neutral.length = C.m_nq := by
  rw [h.neutral_eq, h.nq_sum, h.nqs, List.length_flatten, List.map_map]
  congr 1
  apply List.map_congr_left
  intro lg _
  exact lg.neutral_size

section Append

variable [Zero Scalar]

theorem append_liegroups (C : CartesianProductOperationVariantTpl Scalar Gen)
    (lg : LieGroupGeneric Scalar Gen) : (C.append lg).liegroups = C.liegroups ++ [lg] := rfl

theorem append_lg_nqs (C : CartesianProductOperationVariantTpl Scalar Gen)
    (lg : LieGroupGeneric Scalar Gen) : (C.append lg).lg_nqs = C.lg_nqs ++ [lg.nq] := rfl

theorem append_lg_nvs (C : CartesianProductOperationVariantTpl Scalar Gen)
    (lg : LieGroupGeneric Scalar Gen) : (C.append lg).lg_nvs = C.lg_nvs ++ [lg.nv] := rfl

theorem append_m_nq (C : CartesianProductOperationVariantTpl Scalar Gen)
    (lg : LieGroupGeneric Scalar Gen) : (C.append lg).m_nq = C.m_nq + lg.nq := rfl

theorem append_m_nv (C : CartesianProductOperationVariantTpl Scalar Gen)
    (lg : LieGroupGeneric Scalar Gen) : (C.append lg).m_nv = C.m_nv + lg.nv := rfl

theorem append_m_name (C : CartesianProductOperationVariantTpl Scalar Gen)
    (lg : LieGroupGeneric Scalar Gen) :
    (C.append lg).m_name =
      (if C.liegroups.length > 0 then C.m_name ++ " x " else C.m_name) ++ lg.name := by
  show (if (C.liegroups ++ [lg]).length > 1 then C.m_name ++ " x " else C.m_name) ++ lg.name
    = _
  simp

theorem append_m_neutral (C : CartesianProductOperationVariantTpl Scalar Gen)
    (lg : LieGroupGeneric Scalar Gen) (h : C.m_neutral.length = C.m_nq) :
    (C.append lg).m_neutral = C.m_neutral ++ lg.neutral := by
  have key : assignTail (conservativeResize C.m_neutral (C.m_nq + lg.nq)) lg.nq lg.neutral
      = some (C.m_neutral ++ lg.neutral) := by
    rw [conservativeResize_of_length h]
    unfold assignTail
    have hlen : (C.m_neutral ++ List.replicate lg.nq (0 : Scalar)).length
        = C.m_neutral.length + lg.nq := by simp
    rw [if_pos (by omega), assignSegment_eq_some (by omega) lg.neutral_size]
    have e1 : (C.m_neutral ++ List.replicate lg.nq (0 : Scalar)).length - lg.nq
        = C.m_neutral.length := by omega
    rw [e1, List.take_left, List.drop_of_length_le (by omega), List.append_nil]
  show (assignTail (conservativeResize C.m_neutral (C.m_nq + lg.nq)) lg.nq lg.neutral).get _
    = _
  simp only [key, Option.get_some]

theorem Consistent.append {C : CartesianProductOperationVariantTpl Scalar Gen}
    (h : Consistent C) (lg : LieGroupGeneric Scalar Gen) : Consistent (C.append lg) where
  nqs := by rw [append_lg_nqs, append_liegroups, h.nqs]; simp
  nvs := by rw [append_lg_nvs, append_liegroups, h.nvs]; simp
  nq_sum := by rw [append_m_nq, append_lg_nqs, h.nq_sum]; simp
  nv_sum := by rw [append_m_nv, append_lg_nvs, h.nv_sum]; simp
  neutral_eq := by
    rw [append_m_neutral C lg h.neutral_length, append_liegroups, h.neutral_eq]
    simp

theorem build_snoc (hs : List (LieGroupGeneric Scalar Gen)) (lg : LieGroupGeneric Scalar Gen) :
    build (hs ++ [lg]) = (build hs).append lg := by
  simp [build]

theorem build_liegroups (hs : List (LieGroupGeneric Scalar Gen)) :
    (build hs).liegroups = hs := by
  induction hs using List.reverseRecOn with
  | nil => rfl
  | append_singleton hs lg ih => rw [build_snoc, append_liegroups, ih]

theorem consistent_build (hs : List (LieGroupGeneric Scalar Gen)) : Consistent (build hs) := by
  induction hs using List.reverseRecOn with
  | nil => exact consistent_ctor
  | append_singleton hs lg ih => rw [build_snoc]; exact ih.append lg

end Append

/-! ### `operator*` -/

section Product

variable [Zero Scalar]

theorem product_eq_some (A B : CartesianProductOperationVariantTpl Scalar Gen)
    (hA : A.m_neutral.length = A.m_nq) (hB : B.m_neutral.length = B.m_nq) :
    A.product B = some
      { liegroups := A.liegroups ++ B.liegroups
        m_nq := A.m_nq + B.m_nq
        m_nv := A.m_nv + B.m_nv
        lg_nqs := A.lg_nqs ++ B.lg_nqs
        lg_nvs := A.lg_nvs ++ B.lg_nvs
        m_name :=
          if B.liegroups.length > 0 then
            ((if A.liegroups.length > 0 then A.m_name else "") ++ " x ") ++ B.m_name
          else (if A.liegroups.length > 0 then A.m_name else "")
        m_neutral := A.m_neutral ++ B.m_neutral } := by
  have h1 : assignHead (resize ([] : List Scalar) (A.m_nq + B.m_nq)) A.m_nq A.m_neutral
      = some (A.m_neutral ++ List.replicate B.m_nq 0) := by
    rw [resize_nil]
    unfold assignHead
    rw [assignSegment_eq_some (by simp) hA]
    simp
  have h2 : assignTail (A.m_neutral ++ List.replicate B.m_nq (0 : Scalar)) B.m_nq B.m_neutral
      = some (A.m_neutral ++ B.m_neutral) := by
    unfold assignTail
    have hlen : (A.m_neutral ++ List.replicate B.m_nq (0 : Scalar)).length
        = A.m_neutral.length + B.m_nq := by simp
    rw [if_pos (by omega), assignSegment_eq_some (by omega) hB]
    have e1 : (A.m_neutral ++ List.replicate B.m_nq (0 : Scalar)).length - B.m_nq
        = A.m_neutral.length := by omega
    rw [e1, List.take_left, List.drop_of_length_le (by omega), List.append_nil]
  unfold product
  simp only [ctor, List.nil_append]
  simp only [h1, h2]

theorem Consistent.product {A B R : CartesianProductOperationVariantTpl Scalar Gen}
    (hA : Consistent A) (hB : Consistent B) (h : A.product B = some R) : Consistent R := by
  rw [product_eq_some A B hA.neutral_length hB.neutral_length] at h
  injection h with h
  subst h
  exact
    { nqs := by simp [hA.nqs, hB.nqs]
      nvs := by simp [hA.nvs, hB.nvs]
      nq_sum := by simp [hA.nq_sum, hB.nq_sum]
      nv_sum := by simp [hA.nv_sum, hB.nv_sum]
      neutral_eq := by simp [hA.neutral_eq, hB.neutral_eq] }

theorem Reachable.consistent {C : CartesianProductOperationVariantTpl Scalar Gen}
    (h : Reachable C) : Consistent C := by
  induction h with
  | ctor => exact consistent_ctor
  | append lg _ ih => exact ih.append lg
  | product _ _ h ihA ihB => exact ihA.product ihB h

theorem reachable_build (hs : List (LieGroupGeneric Scalar Gen)) : Reachable (build hs) := by
  induction hs using List.reverseRecOn with
  | nil => exact Reachable.ctor
  | append_singleton hs lg ih => rw [build_snoc]; exact Reachable.append lg ih

end Product

end CartesianProductOperationVariantTpl

end pinocchio

namespace pinocchio

namespace CartesianProductOperationVariantTpl

variable {Scalar Gen : Type}

section Names

variable [Zero Scalar]

theorem foldl_append_liegroups (hs : List (LieGroupGeneric Scalar Gen))
    (C : CartesianProductOperationVariantTpl Scalar Gen) :
    (hs.foldl append C).liegroups = C.liegroups ++ hs := by
  induction hs generalizing C with
  | nil => simp
  | cons h t ih => rw [List.foldl_cons, ih, append_liegroups]; simp

theorem foldl_append_m_name (hs : List (LieGroupGeneric Scalar Gen))
    (C : CartesianProductOperationVariantTpl Scalar Gen) (hC : C.liegroups.length > 0) :
    (hs.foldl append C).m_name
      = String.intercalate.go C.m_name " x " (hs.map (fun lg => lg.name)) := by
  induction hs generalizing C with
  | nil => rfl
  | cons h t ih =>
    rw [List.foldl_cons, ih (C.append h) (by rw [append_liegroups]; simp), append_m_name,
      if_pos hC]
    rfl

theorem build_m_name (hs : List (LieGroupGeneric Scalar Gen)) :
    (build hs).m_name = String.intercalate " x " (hs.map (fun lg => lg.name)) := by
  cases hs with
  | nil => rfl
  | cons h t =>
    show (t.foldl append (append ctor h)).m_name = _
    rw [foldl_append_m_name t _ (by rw [append_liegroups]; simp), append_m_name]
    simp [ctor, String.intercalate]

end Names

end CartesianProductOperationVariantTpl

end pinocchio

namespace pinocchio

variable {Scalar Gen : Type}

/-! ### Blocks of concatenated vectors -/

theorem segment_zero_append {x r : List Scalar} {n : Nat} (hx : x.length = n) :
    segment (x ++ r) 0 n = some x := by
  rw [segment_eq_some (by simp; omega)]
  simp [← hx]

theorem segment_append_right {x r : List Scalar} {m : Nat} (hx : x.length = m)
    (start n : Nat) : segment (x ++ r) (m + start) n = segment r start n := by
  subst hx
  unfold segment
  simp only [List.length_append, List.drop_append]
  by_cases h : start + n ≤ r.length
  · rw [if_pos (by omega), if_pos h]
  · rw [if_neg (by omega), if_neg h]

theorem sum_nq_le_of_getElem? (f : LieGroupGeneric Scalar Gen → Nat) :
    ∀ (lgs : List (LieGroupGeneric Scalar Gen)) (k : Nat) (lg : LieGroupGeneric Scalar Gen),
      lgs[k]? = some lg →
      ((lgs.take k).map f).sum + f lg ≤ (lgs.map f).sum
  | [], k, lg, h => by simp at h
  | l :: lgs, 0, lg, h => by
    simp only [List.getElem?_cons_zero, Option.some.injEq] at h
    subst h
    simp
  | l :: lgs, k + 1, lg, h => by
    simp only [List.getElem?_cons_succ] at h
    have := sum_nq_le_of_getElem? f lgs k lg h
    simp only [List.take_succ_cons, List.map_cons, List.sum_cons]
    omega

theorem differenceBlocks_length :
    ∀ (lgs : List (LieGroupGeneric Scalar Gen)) (q0 q1 : List Scalar),
      (lgs.map (fun lg => lg.nq)).sum ≤ q0.length →
      (lgs.map (fun lg => lg.nq)).sum ≤ q1.length →
      (differenceBlocks lgs q0 q1).length = (lgs.map (fun lg => lg.nv)).sum
  | [], _, _, _, _ => rfl
  | lg :: lgs, q0, q1, h0, h1 => by
    simp only [List.map_cons, List.sum_cons] at h0 h1 ⊢
    simp only [differenceBlocks, List.length_append]
    rw [lg.difference_size _ _ (by simp; omega) (by simp; omega),
      differenceBlocks_length lgs _ _ (by simp; omega) (by simp; omega)]

theorem differenceBlocks_segment :
    ∀ (lgs : List (LieGroupGeneric Scalar Gen)) (q0 q1 : List Scalar) (k : Nat)
      (lg : LieGroupGeneric Scalar Gen),
      (lgs.map (fun lg => lg.nq)).sum ≤ q0.length →
      (lgs.map (fun lg => lg.nq)).sum ≤ q1.length →
      lgs[k]? = some lg →
      segment (differenceBlocks lgs q0 q1) ((lgs.take k).map (fun lg => lg.nv)).sum lg.nv
        = some (lg.difference
            ((q0.drop ((lgs.take k).map (fun lg => lg.nq)).sum).take lg.nq)
            ((q1.drop ((lgs.take k).map (fun lg => lg.nq)).sum).take lg.nq))
  | [], _, _, k, lg, _, _, h => by simp at h
  | l :: lgs, q0, q1, 0, lg, h0, h1, h => by
    simp only [List.getElem?_cons_zero, Option.some.injEq] at h
    subst h
    simp only [List.map_cons, List.sum_cons] at h0 h1
    simp only [List.take_zero, List.map_nil, List.sum_nil, List.drop_zero, differenceBlocks]
    exact segment_zero_append (l.difference_size _ _ (by simp; omega) (by simp; omega))
  | l :: lgs, q0, q1, k + 1, lg, h0, h1, h => by
    simp only [List.getElem?_cons_succ] at h
    simp only [List.map_cons, List.sum_cons] at h0 h1
    simp only [List.take_succ_cons, List.map_cons, List.sum_cons, differenceBlocks]
    rw [segment_append_right (l.difference_size _ _ (by simp; omega) (by simp; omega)),
      differenceBlocks_segment lgs _ _ k lg (by simp; omega) (by simp; omega) h]
    simp only [List.drop_drop]

namespace CartesianProductOperationVariantTpl

/-! ### The loop of `difference_impl` -/

theorem difference_step_eq_some (lg : LieGroupGeneric Scalar Gen) {id_q id_v : Nat}
    {q0 q1 d : List Scalar} (h0 : id_q + lg.nq ≤ q0.length) (h1 : id_q + lg.nq ≤ q1.length)
    (hd : id_v + lg.nv ≤ d.length) :
    difference_step lg lg.nq lg.nv id_q id_v q0 q1 d
      = some (d.take id_v
          ++ lg.difference ((q0.drop id_q).take lg.nq) ((q1.drop id_q).take lg.nq)
          ++ d.drop (id_v + lg.nv)) := by
  unfold difference_step
  rw [segment_eq_some h0, segment_eq_some h1]
  exact assignSegment_eq_some hd
    (lg.difference_size _ _ (by simp; omega) (by simp; omega))

theorem difference_step_bounds {lg : LieGroupGeneric Scalar Gen} {nq nv id_q id_v : Nat}
    {q0 q1 d d1 : List Scalar} (h : difference_step lg nq nv id_q id_v q0 q1 d = some d1) :
    id_q + nq ≤ q0.length ∧ id_q + nq ≤ q1.length ∧ id_v + nv ≤ d.length ∧
      d1.length = d.length := by
  unfold difference_step at h
  by_cases h0 : id_q + nq ≤ q0.length
  · by_cases h1 : id_q + nq ≤ q1.length
    · rw [segment_eq_some h0, segment_eq_some h1] at h
      simp only at h
      by_cases hd : id_v + nv ≤ d.length
      · exact ⟨h0, h1, hd, assignSegment_length h⟩
      · rw [assignSegment_eq_none _ (Nat.not_le.mp hd)] at h
        cases h
    · rw [segment_eq_some h0, segment_eq_none (by omega)] at h
      cases h
  · rw [segment_eq_none (by omega)] at h
    split at h <;> simp_all

theorem difference_loop_ok (q0 q1 : List Scalar) :
    ∀ (lgs : List (LieGroupGeneric Scalar Gen)) (id_q id_v : Nat) (d : List Scalar),
      id_q + (lgs.map (fun lg => lg.nq)).sum ≤ q0.length →
      id_q + (lgs.map (fun lg => lg.nq)).sum ≤ q1.length →
      id_v + (lgs.map (fun lg => lg.nv)).sum ≤ d.length →
      difference_loop q0 q1 lgs (lgs.map (fun lg => lg.nq)) (lgs.map (fun lg => lg.nv))
          id_q id_v d
        = .ok (d.take id_v ++ differenceBlocks lgs (q0.drop id_q) (q1.drop id_q)
            ++ d.drop (id_v + (lgs.map (fun lg => lg.nv)).sum))
  | [], id_q, id_v, d, _, _, _ => by
    simp [difference_loop, differenceBlocks]
  | lg :: lgs, id_q, id_v, d, h0, h1, hd => by
    simp only [List.map_cons, List.sum_cons] at h0 h1 hd ⊢
    have hx : (lg.difference ((q0.drop id_q).take lg.nq) ((q1.drop id_q).take lg.nq)).length
        = lg.nv := lg.difference_size _ _ (by simp; omega) (by simp; omega)
    simp only [difference_loop]
    rw [difference_step_eq_some lg (by omega) (by omega) (by omega)]
    simp only
    rw [difference_loop_ok q0 q1 lgs _ _ _ (by omega) (by omega)
      (by simp only [List.length_append, List.length_take, List.length_drop]; omega)]
    congr 1
    simp only [differenceBlocks, List.drop_drop, List.append_assoc]
    have e1 : List.take (id_v + lg.nv)
        (List.take id_v d ++ (lg.difference ((q0.drop id_q).take lg.nq)
          ((q1.drop id_q).take lg.nq) ++ List.drop (id_v + lg.nv) d))
        = List.take id_v d ++ lg.difference ((q0.drop id_q).take lg.nq)
          ((q1.drop id_q).take lg.nq) := by
      rw [← List.append_assoc]
      apply List.take_left'
      simp only [List.length_append, List.length_take]
      omega
    have e2 : List.drop (id_v + lg.nv + (lgs.map (fun lg => lg.nv)).sum)
        (List.take id_v d ++ (lg.difference ((q0.drop id_q).take lg.nq)
          ((q1.drop id_q).take lg.nq) ++ List.drop (id_v + lg.nv) d))
        = List.drop (id_v + (lg.nv + (lgs.map (fun lg => lg.nv)).sum)) d := by
      rw [← List.append_assoc]
      have hl : (List.take id_v d ++ lg.difference ((q0.drop id_q).take lg.nq)
          ((q1.drop id_q).take lg.nq)).length = id_v + lg.nv := by
        simp only [List.length_append, List.length_take]
        omega
      rw [← hl, List.drop_append, List.drop_drop, hl]
      congr 1
      omega
    rw [e1, e2, List.append_assoc]

theorem difference_loop_error (q0 q1 : List Scalar) :
    ∀ (lgs : List (LieGroupGeneric Scalar Gen)) (id_q id_v : Nat) (d : List Scalar),
      id_q ≤ q0.length → id_q ≤ q1.length → id_v ≤ d.length →
      ¬ (id_q + (lgs.map (fun lg => lg.nq)).sum ≤ q0.length ∧
          id_q + (lgs.map (fun lg => lg.nq)).sum ≤ q1.length ∧
          id_v + (lgs.map (fun lg => lg.nv)).sum ≤ d.length) →
      ∃ e, difference_loop q0 q1 lgs (lgs.map (fun lg => lg.nq))
          (lgs.map (fun lg => lg.nv)) id_q id_v d = .error e
  | [], id_q, id_v, d, h0, h1, hd, hn => by
    simp only [List.map_nil, List.sum_nil, Nat.add_zero] at hn
    exact absurd ⟨h0, h1, hd⟩ hn
  | lg :: lgs, id_q, id_v, d, h0, h1, hd, hn => by
    simp only [List.map_cons, List.sum_cons] at hn ⊢
    simp only [difference_loop]
    cases hs : difference_step lg lg.nq lg.nv id_q id_v q0 q1 d with
    | none => exact ⟨d, rfl⟩
    | some d1 =>
      obtain ⟨b0, b1, bd, hl⟩ := difference_step_bounds hs
      simp only
      apply difference_loop_error q0 q1 lgs _ _ _ b0 b1 (by omega)
      intro hc
      apply hn
      omega

end CartesianProductOperationVariantTpl

end pinocchio

namespace pinocchio

variable {Scalar Gen : Type}

theorem integrateBlocks_length :
    ∀ (lgs : List (LieGroupGeneric Scalar Gen)) (q v : List Scalar),
      (lgs.map (fun lg => lg.nq)).sum ≤ q.length →
      (lgs.map (fun lg => lg.nv)).sum ≤ v.length →
      (integrateBlocks lgs q v).length = (lgs.map (fun lg => lg.nq)).sum
  | [], _, _, _, _ => rfl
  | lg :: lgs, q, v, h0, h1 => by
    simp only [List.map_cons, List.sum_cons] at h0 h1 ⊢
    simp only [integrateBlocks, List.length_append]
    rw [lg.integrate_size _ _ (by simp; omega) (by simp; omega),
      integrateBlocks_length lgs _ _ (by simp; omega) (by simp; omega)]

theorem integrateBlocks_segment :
    ∀ (lgs : List (LieGroupGeneric Scalar Gen)) (q v : List Scalar) (k : Nat)
      (lg : LieGroupGeneric Scalar Gen),
      (lgs.map (fun lg => lg.nq)).sum ≤ q.length →
      (lgs.map (fun lg => lg.nv)).sum ≤ v.length →
      lgs[k]? = some lg →
      segment (integrateBlocks lgs q v) ((lgs.take k).map (fun lg => lg.nq)).sum lg.nq
        = some (lg.integrate
            ((q.drop ((lgs.take k).map (fun lg => lg.nq)).sum).take lg.nq)
            ((v.drop ((lgs.take k).map (fun lg => lg.nv)).sum).take lg.nv))
  | [], _, _, k, lg, _, _, h => by simp at h
  | l :: lgs, q, v, 0, lg, h0, h1, h => by
    simp only [List.getElem?_cons_zero, Option.some.injEq] at h
    subst h
    simp only [List.map_cons, List.sum_cons] at h0 h1
    simp only [List.take_zero, List.map_nil, List.sum_nil, List.drop_zero, integrateBlocks]
    exact segment_zero_append (l.integrate_size _ _ (by simp; omega) (by simp; omega))
  | l :: lgs, q, v, k + 1, lg, h0, h1, h => by
    simp only [List.getElem?_cons_succ] at h
    simp only [List.map_cons, List.sum_cons] at h0 h1
    simp only [List.take_succ_cons, List.map_cons, List.sum_cons, integrateBlocks]
    rw [segment_append_right (l.integrate_size _ _ (by simp; omega) (by simp; omega)),
      integrateBlocks_segment lgs _ _ k lg (by simp; omega) (by simp; omega) h]
    simp only [List.drop_drop]

namespace CartesianProductOperationVariantTpl

/-! ### The loop of `integrate_impl` -/

theorem integrate_step_eq_some (lg : LieGroupGeneric Scalar Gen) {id_q id_v : Nat}
    {q v qout : List Scalar} (h0 : id_q + lg.nq ≤ q.length) (h1 : id_v + lg.nv ≤ v.length)
    (hd : id_q + lg.nq ≤ qout.length) :
    integrate_step lg lg.nq lg.nv id_q id_v q v qout
      = some (qout.take id_q
          ++ lg.integrate ((q.drop id_q).take lg.nq) ((v.drop id_v).take lg.nv)
          ++ qout.drop (id_q + lg.nq)) := by
  unfold integrate_step
  rw [segment_eq_some h0, segment_eq_some h1]
  exact assignSegment_eq_some hd
    (lg.integrate_size _ _ (by simp; omega) (by simp; omega))

theorem integrate_step_bounds {lg : LieGroupGeneric Scalar Gen} {nq nv id_q id_v : Nat}
    {q v qout qout1 : List Scalar}
    (h : integrate_step lg nq nv id_q id_v q v qout = some qout1) :
    id_q + nq ≤ q.length ∧ id_v + nv ≤ v.length ∧ id_q + nq ≤ qout.length ∧
      qout1.length = qout.length := by
  unfold integrate_step at h
  by_cases h0 : id_q + nq ≤ q.length
  · by_cases h1 : id_v + nv ≤ v.length
    · rw [segment_eq_some h0, segment_eq_some h1] at h
      simp only at h
      by_cases hd : id_q + nq ≤ qout.length
      · exact ⟨h0, h1, hd, assignSegment_length h⟩
      · rw [assignSegment_eq_none _ (Nat.not_le.mp hd)] at h
        cases h
    · rw [segment_eq_some h0, segment_eq_none (by omega)] at h
      cases h
  · rw [segment_eq_none (by omega)] at h
    split at h <;> simp_all

theorem integrate_loop_ok (q v : List Scalar) :
    ∀ (lgs : List (LieGroupGeneric Scalar Gen)) (id_q id_v : Nat) (qout : List Scalar),
      id_q + (lgs.map (fun lg => lg.nq)).sum ≤ q.length →
      id_v + (lgs.map (fun lg => lg.nv)).sum ≤ v.length →
      id_q + (lgs.map (fun lg => lg.nq)).sum ≤ qout.length →
      integrate_loop q v lgs (lgs.map (fun lg => lg.nq)) (lgs.map (fun lg => lg.nv))
          id_q id_v qout
        = .ok (qout.take id_q ++ integrateBlocks lgs (q.drop id_q) (v.drop id_v)
            ++ qout.drop (id_q + (lgs.map (fun lg => lg.nq)).sum))
  | [], id_q, id_v, qout, _, _, _ => by
    simp [integrate_loop, integrateBlocks]
  | lg :: lgs, id_q, id_v, qout, h0, h1, hd => by
    simp only [List.map_cons, List.sum_cons] at h0 h1 hd ⊢
    have hx : (lg.integrate ((q.drop id_q).take lg.nq) ((v.drop id_v).take lg.nv)).length
        = lg.nq := lg.integrate_size _ _ (by simp; omega) (by simp; omega)
    simp only [integrate_loop]
    rw [integrate_step_eq_some lg (by omega) (by omega) (by omega)]
    simp only
    rw [integrate_loop_ok q v lgs _ _ _ (by omega) (by omega)
      (by simp only [List.length_append, List.length_take, List.length_drop]; omega)]
    congr 1
    simp only [integrateBlocks, List.drop_drop, List.append_assoc]
    have e1 : List.take (id_q + lg.nq)
        (List.take id_q qout ++ (lg.integrate ((q.drop id_q).take lg.nq)
          ((v.drop id_v).take lg.nv) ++ List.drop (id_q + lg.nq) qout))
        = List.take id_q qout ++ lg.integrate ((q.drop id_q).take lg.nq)
          ((v.drop id_v).take lg.nv) := by
      rw [← List.append_assoc]
      apply List.take_left'
      simp only [List.length_append, List.length_take]
      omega
    have e2 : List.drop (id_q + lg.nq + (lgs.map (fun lg => lg.nq)).sum)
        (List.take id_q qout ++ (lg.integrate ((q.drop id_q).take lg.nq)
          ((v.drop id_v).take lg.nv) ++ List.drop (id_q + lg.nq) qout))
        = List.drop (id_q + (lg.nq + (lgs.map (fun lg => lg.nq)).sum)) qout := by
      rw [← List.append_assoc]
      have hl : (List.take id_q qout ++ lg.integrate ((q.drop id_q).take lg.nq)
          ((v.drop id_v).take lg.nv)).length = id_q + lg.nq := by
        simp only [List.length_append, List.length_take]
        omega
      rw [← hl, List.drop_append, List.drop_drop, hl]
      congr 1
      omega
    rw [e1, e2, List.append_assoc]

theorem integrate_loop_error (q v : List Scalar) :
    ∀ (lgs : List (LieGroupGeneric Scalar Gen)) (id_q id_v : Nat) (qout : List Scalar),
      id_q ≤ q.length → id_v ≤ v.length → id_q ≤ qout.length →
      ¬ (id_q + (lgs.map (fun lg => lg.nq)).sum ≤ q.length ∧
          id_v + (lgs.map (fun lg => lg.nv)).sum ≤ v.length ∧
          id_q + (lgs.map (fun lg => lg.nq)).sum ≤ qout.length) →
      ∃ e, integrate_loop q v lgs (lgs.map (fun lg => lg.nq))
          (lgs.map (fun lg => lg.nv)) id_q id_v qout = .error e
  | [], id_q, id_v, qout, h0, h1, hd, hn => by
    simp only [List.map_nil, List.sum_nil, Nat.add_zero] at hn
    exact absurd ⟨h0, h1, hd⟩ hn
  | lg :: lgs, id_q, id_v, qout, h0, h1, hd, hn => by
    simp only [List.map_cons, List.sum_cons] at hn ⊢
    simp only [integrate_loop]
    cases hs : integrate_step lg lg.nq lg.nv id_q id_v q v qout with
    | none => exact ⟨qout, rfl⟩
    | some qout1 =>
      obtain ⟨b0, b1, bd, hl⟩ := integrate_step_bounds hs
      simp only
      apply integrate_loop_error q v lgs _ _ _ b0 b1 (by omega)
      intro hc
      apply hn
      omega

/-! ### `difference_impl` and `integrate_impl` on consistent composites -/

theorem difference_impl_eq {C : CartesianProductOperationVariantTpl Scalar Gen}
    (hC : Consistent C) {q0 q1 d : List Scalar} (h0 : C.m_nq ≤ q0.length)
    (h1 : C.m_nq ≤ q1.length) (hd : C.m_nv ≤ d.length) :
    difference_impl C q0 q1 d
      = .ok (differenceBlocks C.liegroups q0 q1 ++ d.drop C.m_nv) := by
  have e0 := hC.nq_sum
  have ev := hC.nv_sum
  rw [hC.nqs] at e0
  rw [hC.nvs] at ev
  unfold difference_impl
  rw [hC.nqs, hC.nvs, difference_loop_ok q0 q1 C.liegroups 0 0 d (by omega) (by omega)
    (by omega)]
  simp [← ev]

theorem integrate_impl_eq {C : CartesianProductOperationVariantTpl Scalar Gen}
    (hC : Consistent C) {q v qout : List Scalar} (h0 : C.m_nq ≤ q.length)
    (h1 : C.m_nv ≤ v.length) (hd : C.m_nq ≤ qout.length) :
    integrate_impl C q v qout
      = .ok (integrateBlocks C.liegroups q v ++ qout.drop C.m_nq) := by
  have e0 := hC.nq_sum
  have ev := hC.nv_sum
  rw [hC.nqs] at e0
  rw [hC.nvs] at ev
  unfold integrate_impl
  rw [hC.nqs, hC.nvs, integrate_loop_ok q v C.liegroups 0 0 qout (by omega) (by omega)
    (by omega)]
  simp [← e0]

theorem Consistent.offset_q_eq {C : CartesianProductOperationVariantTpl Scalar Gen}
    (hC : Consistent C) (k : Nat) :
    offset_q C k = ((C.liegroups.take k).map (fun lg => lg.nq)).sum := by
  unfold offset_q
  rw [hC.nqs, List.map_take]

theorem Consistent.offset_v_eq {C : CartesianProductOperationVariantTpl Scalar Gen}
    (hC : Consistent C) (k : Nat) :
    offset_v C k = ((C.liegroups.take k).map (fun lg => lg.nv)).sum := by
  unfold offset_v
  rw [hC.nvs, List.map_take]

theorem Consistent.offset_q_le {C : CartesianProductOperationVariantTpl Scalar Gen}
    (hC : Consistent C) {k : Nat} {lg : LieGroupGeneric Scalar Gen}
    (hk : C.liegroups[k]? = some lg) : offset_q C k + lg.nq ≤ C.m_nq := by
  rw [hC.offset_q_eq, hC.nq_sum, hC.nqs]
  exact sum_nq_le_of_getElem? (fun lg => lg.nq) C.liegroups k lg hk

theorem Consistent.offset_v_le {C : CartesianProductOperationVariantTpl Scalar Gen}
    (hC : Consistent C) {k : Nat} {lg : LieGroupGeneric Scalar Gen}
    (hk : C.liegroups[k]? = some lg) : offset_v C k + lg.nv ≤ C.m_nv := by
  rw [hC.offset_v_eq, hC.nv_sum, hC.nvs]
  exact sum_nq_le_of_getElem? (fun lg => lg.nv) C.liegroups k lg hk

theorem Consistent.cached {C : CartesianProductOperationVariantTpl Scalar Gen}
    (hC : Consistent C) {k : Nat} {lg : LieGroupGeneric Scalar Gen}
    (hk : C.liegroups[k]? = some lg) :
    C.lg_nqs[k]? = some lg.nq ∧ C.lg_nvs[k]? = some lg.nv := by
  rw [hC.nqs, hC.nvs]
  simp [hk]

theorem difference_impl_slice {C : CartesianProductOperationVariantTpl Scalar Gen}
    (hC : Consistent C) {q0 q1 d : List Scalar} (h0 : q0.length = C.m_nq)
    (h1 : q1.length = C.m_nq) (hd : d.length = C.m_nv) :
    ∃ d', difference_impl C q0 q1 d = .ok d' ∧ d'.length = C.m_nv ∧
      ∀ (k : Nat) (lg : LieGroupGeneric Scalar Gen), C.liegroups[k]? = some lg →
        ∃ a b, segment q0 (offset_q C k) lg.nq = some a ∧
          segment q1 (offset_q C k) lg.nq = some b ∧
          segment d' (offset_v C k) lg.nv = some (lg.difference a b) := by
  have e0 := hC.nq_sum
  have ev := hC.nv_sum
  rw [hC.nqs] at e0
  rw [hC.nvs] at ev
  refine ⟨_, difference_impl_eq hC (by omega) (by omega) (by omega), ?_, ?_⟩
  · rw [List.drop_of_length_le (by omega), List.append_nil,
      differenceBlocks_length _ _ _ (by omega) (by omega), ev]
  · intro k lg hk
    have hb := hC.offset_q_le hk
    refine ⟨_, _, segment_eq_some (by omega), segment_eq_some (by omega), ?_⟩
    rw [List.drop_of_length_le (by omega), List.append_nil, hC.offset_q_eq, hC.offset_v_eq]
    exact differenceBlocks_segment _ _ _ k lg (by omega) (by omega) hk

theorem integrate_impl_slice {C : CartesianProductOperationVariantTpl Scalar Gen}
    (hC : Consistent C) {q v qout : List Scalar} (h0 : q.length = C.m_nq)
    (h1 : v.length = C.m_nv) (hd : qout.length = C.m_nq) :
    ∃ r, integrate_impl C q v qout = .ok r ∧ r.length = C.m_nq ∧
      ∀ (k : Nat) (lg : LieGroupGeneric Scalar Gen), C.liegroups[k]? = some lg →
        ∃ a b, segment q (offset_q C k) lg.nq = some a ∧
          segment v (offset_v C k) lg.nv = some b ∧
          segment r (offset_q C k) lg.nq = some (lg.integrate a b) := by
  have e0 := hC.nq_sum
  have ev := hC.nv_sum
  rw [hC.nqs] at e0
  rw [hC.nvs] at ev
  refine ⟨_, integrate_impl_eq hC (by omega) (by omega) (by omega), ?_, ?_⟩
  · rw [List.drop_of_length_le (by omega), List.append_nil,
      integrateBlocks_length _ _ _ (by omega) (by omega), e0]
  · intro k lg hk
    have hb := hC.offset_q_le hk
    have hb2 := hC.offset_v_le hk
    refine ⟨_, _, segment_eq_some (by omega), segment_eq_some (by omega), ?_⟩
    rw [List.drop_of_length_le (by omega), List.append_nil, hC.offset_q_eq, hC.offset_v_eq]
    exact integrateBlocks_segment _ _ _ k lg (by omega) (by omega) hk

end CartesianProductOperationVariantTpl

end pinocchio

namespace pinocchio

variable {Scalar Gen : Type}

theorem integrateBlocks_differenceBlocks :
    ∀ (lgs : List (LieGroupGeneric Scalar Gen)) (q0 q1 : List Scalar),
      q0.length = (lgs.map (fun lg => lg.nq)).sum →
      q1.length = (lgs.map (fun lg => lg.nq)).sum →
      (∀ lg ∈ lgs, ∀ a b : List Scalar, a.length = lg.nq → b.length = lg.nq →
        lg.integrate a (lg.difference a b) = b) →
      integrateBlocks lgs q0 (differenceBlocks lgs q0 q1) = q1
  | [], q0, q1, _, h1, _ => by
    simp only [List.map_nil, List.sum_nil, List.length_eq_zero] at h1
    subst h1
    rfl
  | lg :: lgs, q0, q1, h0, h1, hlaw => by
    simp only [List.map_cons, List.sum_cons] at h0 h1
    have ha : (q0.take lg.nq).length = lg.nq := by simp; omega
    have hb : (q1.take lg.nq).length = lg.nq := by simp; omega
    have hx := lg.difference_size _ _ ha hb
    simp only [integrateBlocks, differenceBlocks]
    rw [List.take_left' hx, List.drop_left' hx,
      hlaw lg (List.mem_cons_self _ _) _ _ ha hb,
      integrateBlocks_differenceBlocks lgs _ _ (by simp; omega) (by simp; omega)
        (fun l hl => hlaw l (List.mem_cons_of_mem _ hl)),
      List.take_append_drop]

namespace CartesianProductOperationVariantTpl

/-! ### The loop of `squaredDistance_impl` -/

theorem squaredDistance_loop_ok [Add Scalar] (q0 q1 : List Scalar) :
    ∀ (lgs : List (LieGroupGeneric Scalar Gen)) (id_q : Nat) (d2 : Scalar),
      id_q + (lgs.map (fun lg => lg.nq)).sum ≤ q0.length →
      id_q + (lgs.map (fun lg => lg.nq)).sum ≤ q1.length →
      squaredDistance_loop q0 q1 lgs (lgs.map (fun lg => lg.nq)) id_q d2
        = .ok (squaredDistanceSum lgs (q0.drop id_q) (q1.drop id_q) d2)
  | [], _, _, _, _ => rfl
  | lg :: lgs, id_q, d2, h0, h1 => by
    simp only [List.map_cons, List.sum_cons] at h0 h1 ⊢
    simp only [squaredDistance_loop]
    rw [segment_eq_some (by omega), segment_eq_some (by omega)]
    simp only
    rw [squaredDistance_loop_ok q0 q1 lgs _ _ (by omega) (by omega)]
    simp only [squaredDistanceSum, List.drop_drop]

theorem squaredDistance_loop_error [Add Scalar] (q0 q1 : List Scalar) :
    ∀ (lgs : List (LieGroupGeneric Scalar Gen)) (id_q : Nat) (d2 : Scalar),
      id_q ≤ q0.length → id_q ≤ q1.length →
      ¬ (id_q + (lgs.map (fun lg => lg.nq)).sum ≤ q0.length ∧
          id_q + (lgs.map (fun lg => lg.nq)).sum ≤ q1.length) →
      ∃ e, squaredDistance_loop q0 q1 lgs (lgs.map (fun lg => lg.nq)) id_q d2 = .error e
  | [], id_q, d2, h0, h1, hn => by
    simp only [List.map_nil, List.sum_nil, Nat.add_zero] at hn
    exact absurd ⟨h0, h1⟩ hn
  | lg :: lgs, id_q, d2, h0, h1, hn => by
    simp only [List.map_cons, List.sum_cons] at hn ⊢
    simp only [squaredDistance_loop]
    by_cases b0 : id_q + lg.nq ≤ q0.length
    · by_cases b1 : id_q + lg.nq ≤ q1.length
      · rw [segment_eq_some b0, segment_eq_some b1]
        simp only
        apply squaredDistance_loop_error q0 q1 lgs _ _ b0 b1
        intro hc
        apply hn
        omega
      · rw [segment_eq_some b0, segment_eq_none (Nat.not_le.mp b1)]
        exact ⟨d2, rfl⟩
    · rw [segment_eq_none (Nat.not_le.mp b0)]
      exact ⟨d2, by split <;> simp_all⟩

theorem squaredDistance_impl_eq [Zero Scalar] [Add Scalar]
    {C : CartesianProductOperationVariantTpl Scalar Gen}
    (hC : Consistent C) {q0 q1 : List Scalar} (h0 : C.m_nq ≤ q0.length)
    (h1 : C.m_nq ≤ q1.length) :
    squaredDistance_impl C q0 q1
      = .ok { d2 := squaredDistanceSum C.liegroups q0 q1 0, returned := none } := by
  have e0 := hC.nq_sum
  rw [hC.nqs] at e0
  unfold squaredDistance_impl
  rw [hC.nqs, squaredDistance_loop_ok q0 q1 C.liegroups 0 0 (by omega) (by omega)]
  rfl

/-! ### The loops of `random_impl` and `randomConfiguration_impl` -/

theorem random_step_eq_some (lg : LieGroupGeneric Scalar Gen) {id_q : Nat}
    {s : List Scalar × Gen} (h : id_q + lg.nq ≤ s.1.length) :
    random_step lg lg.nq id_q s
      = some (s.1.take id_q ++ (lg.random s.2).1 ++ s.1.drop (id_q + lg.nq),
          (lg.random s.2).2) := by
  unfold random_step
  rw [assignSegment_eq_some h (lg.random_size _)]

theorem random_step_bounds {lg : LieGroupGeneric Scalar Gen} {nq id_q : Nat}
    {s s1 : List Scalar × Gen} (h : random_step lg nq id_q s = some s1) :
    id_q + nq ≤ s.1.length ∧ s1.1.length = s.1.length := by
  unfold random_step at h
  by_cases hb : id_q + nq ≤ s.1.length
  · cases ha : assignSegment s.1 id_q nq (lg.random s.2).1 with
    | none => rw [ha] at h; cases h
    | some w =>
      rw [ha] at h
      simp only [Option.some.injEq] at h
      subst h
      exact ⟨hb, assignSegment_length ha⟩
  · rw [assignSegment_eq_none _ (Nat.not_le.mp hb)] at h
    cases h

theorem random_loop_ok :
    ∀ (lgs : List (LieGroupGeneric Scalar Gen)) (id_q : Nat) (s : List Scalar × Gen),
      id_q + (lgs.map (fun lg => lg.nq)).sum ≤ s.1.length →
      ∃ r, random_loop lgs (lgs.map (fun lg => lg.nq)) id_q s = .ok r ∧
        r.1.length = s.1.length
  | [], _, s, _ => ⟨s, rfl, rfl⟩
  | lg :: lgs, id_q, s, h => by
    simp only [List.map_cons, List.sum_cons] at h ⊢
    simp only [random_loop]
    rw [random_step_eq_some lg (by omega)]
    simp only
    have hl : (s.1.take id_q ++ (lg.random s.2).1 ++ s.1.drop (id_q + lg.nq)).length
        = s.1.length := by
      simp only [List.length_append, List.length_take, List.length_drop, lg.random_size]
      omega
    obtain ⟨r, hr, hrl⟩ := random_loop_ok lgs (id_q + lg.nq)
      (s.1.take id_q ++ (lg.random s.2).1 ++ s.1.drop (id_q + lg.nq), (lg.random s.2).2)
      (by rw [hl]; omega)
    exact ⟨r, hr, by rw [hrl, hl]⟩

theorem random_loop_error :
    ∀ (lgs : List (LieGroupGeneric Scalar Gen)) (id_q : Nat) (s : List Scalar × Gen),
      id_q ≤ s.1.length →
      ¬ (id_q + (lgs.map (fun lg => lg.nq)).sum ≤ s.1.length) →
      ∃ e, random_loop lgs (lgs.map (fun lg => lg.nq)) id_q s = .error e
  | [], id_q, s, h, hn => by
    simp only [List.map_nil, List.sum_nil, Nat.add_zero] at hn
    exact absurd h hn
  | lg :: lgs, id_q, s, h, hn => by
    simp only [List.map_cons, List.sum_cons] at hn ⊢
    simp only [random_loop]
    cases hs : random_step lg lg.nq id_q s with
    | none => exact ⟨s, rfl⟩
    | some s1 =>
      obtain ⟨b, hl⟩ := random_step_bounds hs
      simp only
      apply random_loop_error lgs _ _ (by omega)
      intro hc
      apply hn
      omega

theorem randomConfiguration_step_eq_some (lg : LieGroupGeneric Scalar Gen) {id_q : Nat}
    {lower upper : List Scalar} {s : List Scalar × Gen}
    (h0 : id_q + lg.nq ≤ lower.length) (h1 : id_q + lg.nq ≤ upper.length)
    (h : id_q + lg.nq ≤ s.1.length) :
    randomConfiguration_step lg lg.nq id_q lower upper s
      = some (s.1.take id_q
          ++ (lg.randomConfiguration s.2 ((lower.drop id_q).take lg.nq)
                ((upper.drop id_q).take lg.nq)).1
          ++ s.1.drop (id_q + lg.nq),
          (lg.randomConfiguration s.2 ((lower.drop id_q).take lg.nq)
                ((upper.drop id_q).take lg.nq)).2) := by
  unfold randomConfiguration_step
  rw [segment_eq_some h0, segment_eq_some h1]
  simp only
  rw [assignSegment_eq_some h
    (lg.randomConfiguration_size _ _ _ (by simp; omega) (by simp; omega))]

theorem randomConfiguration_step_bounds {lg : LieGroupGeneric Scalar Gen} {nq id_q : Nat}
    {lower upper : List Scalar} {s s1 : List Scalar × Gen}
    (h : randomConfiguration_step lg nq id_q lower upper s = some s1) :
    id_q + nq ≤ lower.length ∧ id_q + nq ≤ upper.length ∧ id_q + nq ≤ s.1.length ∧
      s1.1.length = s.1.length := by
  unfold randomConfiguration_step at h
  by_cases h0 : id_q + nq ≤ lower.length
  · by_cases h1 : id_q + nq ≤ upper.length
    · rw [segment_eq_some h0, segment_eq_some h1] at h
      simp only at h
      by_cases hb : id_q + nq ≤ s.1.length
      · split at h
        · rename_i w ha
          simp only [Option.some.injEq] at h
          subst h
          exact ⟨h0, h1, hb, assignSegment_length ha⟩
        · cases h
      · rw [assignSegment_eq_none _ (Nat.not_le.mp hb)] at h
        cases h
    · rw [segment_eq_some h0, segment_eq_none (Nat.not_le.mp h1)] at h
      cases h
  · rw [segment_eq_none (Nat.not_le.mp h0)] at h
    split at h <;> simp_all

theorem randomConfiguration_loop_ok (lower upper : List Scalar) :
    ∀ (lgs : List (LieGroupGeneric Scalar Gen)) (id_q : Nat) (s : List Scalar × Gen),
      id_q + (lgs.map (fun lg => lg.nq)).sum ≤ lower.length →
      id_q + (lgs.map (fun lg => lg.nq)).sum ≤ upper.length →
      id_q + (lgs.map (fun lg => lg.nq)).sum ≤ s.1.length →
      ∃ r, randomConfiguration_loop lower upper lgs (lgs.map (fun lg => lg.nq)) id_q s
          = .ok r ∧ r.1.length = s.1.length
  | [], _, s, _, _, _ => ⟨s, rfl, rfl⟩
  | lg :: lgs, id_q, s, h0, h1, h => by
    simp only [List.map_cons, List.sum_cons] at h0 h1 h ⊢
    simp only [randomConfiguration_loop]
    rw [randomConfiguration_step_eq_some lg (by omega) (by omega) (by omega)]
    simp only
    have hx := lg.randomConfiguration_size s.2 ((lower.drop id_q).take lg.nq)
      ((upper.drop id_q).take lg.nq) (by simp; omega) (by simp; omega)
    have hl : (s.1.take id_q
          ++ (lg.randomConfiguration s.2 ((lower.drop id_q).take lg.nq)
                ((upper.drop id_q).take lg.nq)).1
          ++ s.1.drop (id_q + lg.nq)).length = s.1.length := by
      simp only [List.length_append, List.length_take, List.length_drop, hx]
      omega
    obtain ⟨r, hr, hrl⟩ := randomConfiguration_loop_ok lower upper lgs (id_q + lg.nq)
      (s.1.take id_q
          ++ (lg.randomConfiguration s.2 ((lower.drop id_q).take lg.nq)
                ((upper.drop id_q).take lg.nq)).1
          ++ s.1.drop (id_q + lg.nq),
        (lg.randomConfiguration s.2 ((lower.drop id_q).take lg.nq)
                ((upper.drop id_q).take lg.nq)).2)
      (by omega) (by omega) (by rw [hl]; omega)
    exact ⟨r, hr, by rw [hrl, hl]⟩

theorem randomConfiguration_loop_error (lower upper : List Scalar) :
    ∀ (lgs : List (LieGroupGeneric Scalar Gen)) (id_q : Nat) (s : List Scalar × Gen),
      id_q ≤ lower.length → id_q ≤ upper.length → id_q ≤ s.1.length →
      ¬ (id_q + (lgs.map (fun lg => lg.nq)).sum ≤ lower.length ∧
          id_q + (lgs.map (fun lg => lg.nq)).sum ≤ upper.length ∧
          id_q + (lgs.map (fun lg => lg.nq)).sum ≤ s.1.length) →
      ∃ e, randomConfiguration_loop lower upper lgs (lgs.map (fun lg => lg.nq)) id_q s
          = .error e
  | [], id_q, s, h0, h1, h, hn => by
    simp only [List.map_nil, List.sum_nil, Nat.add_zero] at hn
    exact absurd ⟨h0, h1, h⟩ hn
  | lg :: lgs, id_q, s, h0, h1, h, hn => by
    simp only [List.map_cons, List.sum_cons] at hn ⊢
    simp only [randomConfiguration_loop]
    cases hs : randomConfiguration_step lg lg.nq id_q lower upper s with
    | none => exact ⟨s, rfl⟩
    | some s1 =>
      obtain ⟨b0, b1, b, hl⟩ := randomConfiguration_step_bounds hs
      simp only
      apply randomConfiguration_loop_error lower upper lgs _ _ b0 b1 (by omega)
      intro hc
      apply hn
      omega

end CartesianProductOperationVariantTpl

end pinocchio

namespace pinocchio

variable {Scalar Gen : Type}

namespace CartesianProductOperationVariantTpl

/-! ### Which calls complete -/

theorem difference_impl_ok_iff {C : CartesianProductOperationVariantTpl Scalar Gen}
    (hC : Consistent C) (q0 q1 d : List Scalar) :
    (∃ r, difference_impl C q0 q1 d = .ok r) ↔
      (C.m_nq ≤ q0.length ∧ C.m_nq ≤ q1.length ∧ C.m_nv ≤ d.length) := by
  constructor
  · rintro ⟨r, hr⟩
    by_contra hn
    have e0 := hC.nq_sum
    have ev := hC.nv_sum
    rw [hC.nqs] at e0
    rw [hC.nvs] at ev
    obtain ⟨e, he⟩ := difference_loop_error q0 q1 C.liegroups 0 0 d (Nat.zero_le _)
      (Nat.zero_le _) (Nat.zero_le _) (by rw [Nat.zero_add, Nat.zero_add, ← e0, ← ev]; exact hn)
    unfold difference_impl at hr
    rw [hC.nqs, hC.nvs, he] at hr
    cases hr
  · rintro ⟨h0, h1, hd⟩
    exact ⟨_, difference_impl_eq hC h0 h1 hd⟩

theorem integrate_impl_ok_iff {C : CartesianProductOperationVariantTpl Scalar Gen}
    (hC : Consistent C) (q v qout : List Scalar) :
    (∃ r, integrate_impl C q v qout = .ok r) ↔
      (C.m_nq ≤ q.length ∧ C.m_nv ≤ v.length ∧ C.m_nq ≤ qout.length) := by
  constructor
  · rintro ⟨r, hr⟩
    by_contra hn
    have e0 := hC.nq_sum
    have ev := hC.nv_sum
    rw [hC.nqs] at e0
    rw [hC.nvs] at ev
    obtain ⟨e, he⟩ := integrate_loop_error q v C.liegroups 0 0 qout (Nat.zero_le _)
      (Nat.zero_le _) (Nat.zero_le _) (by rw [Nat.zero_add, Nat.zero_add, ← e0, ← ev]; exact hn)
    unfold integrate_impl at hr
    rw [hC.nqs, hC.nvs, he] at hr
    cases hr
  · rintro ⟨h0, h1, hd⟩
    exact ⟨_, integrate_impl_eq hC h0 h1 hd⟩

theorem squaredDistance_impl_ok_iff [Zero Scalar] [Add Scalar]
    {C : CartesianProductOperationVariantTpl Scalar Gen}
    (hC : Consistent C) (q0 q1 : List Scalar) :
    (∃ r, squaredDistance_impl C q0 q1 = .ok r) ↔
      (C.m_nq ≤ q0.length ∧ C.m_nq ≤ q1.length) := by
  constructor
  · rintro ⟨r, hr⟩
    by_contra hn
    have e0 := hC.nq_sum
    rw [hC.nqs] at e0
    obtain ⟨e, he⟩ := squaredDistance_loop_error q0 q1 C.liegroups 0 0 (Nat.zero_le _)
      (Nat.zero_le _) (by rw [Nat.zero_add, ← e0]; exact hn)
    unfold squaredDistance_impl at hr
    rw [hC.nqs, he] at hr
    cases hr
  · rintro ⟨h0, h1⟩
    exact ⟨_, squaredDistance_impl_eq hC h0 h1⟩

theorem random_impl_ok_iff {C : CartesianProductOperationVariantTpl Scalar Gen}
    (hC : Consistent C) (g : Gen) (qout : List Scalar) :
    (∃ r, random_impl C g qout = .ok r) ↔ C.m_nq ≤ qout.length := by
  have e0 := hC.nq_sum
  rw [hC.nqs] at e0
  constructor
  · rintro ⟨r, hr⟩
    by_contra hn
    obtain ⟨e, he⟩ := random_loop_error C.liegroups 0 (qout, g) (Nat.zero_le _)
      (by rw [Nat.zero_add, ← e0]; exact hn)
    unfold random_impl at hr
    rw [hC.nqs, he] at hr
    cases hr
  · intro h
    obtain ⟨r, hr, _⟩ := random_loop_ok C.liegroups 0 (qout, g)
      (by rw [Nat.zero_add, ← e0]; exact h)
    refine ⟨r, ?_⟩
    unfold random_impl
    rw [hC.nqs, hr]

theorem randomConfiguration_impl_ok_iff {C : CartesianProductOperationVariantTpl Scalar Gen}
    (hC : Consistent C) (g : Gen) (lower upper qout : List Scalar) :
    (∃ r, randomConfiguration_impl C g lower upper qout = .ok r) ↔
      (C.m_nq ≤ lower.length ∧ C.m_nq ≤ upper.length ∧ C.m_nq ≤ qout.length) := by
  have e0 := hC.nq_sum
  rw [hC.nqs] at e0
  constructor
  · rintro ⟨r, hr⟩
    by_contra hn
    obtain ⟨e, he⟩ := randomConfiguration_loop_error lower upper C.liegroups 0 (qout, g)
      (Nat.zero_le _) (Nat.zero_le _) (Nat.zero_le _)
      (by rw [Nat.zero_add, ← e0]; exact hn)
    unfold randomConfiguration_impl at hr
    rw [hC.nqs, he] at hr
    cases hr
  · rintro ⟨h0, h1, h⟩
    obtain ⟨r, hr, _⟩ := randomConfiguration_loop_ok lower upper C.liegroups 0 (qout, g)
      (by rw [Nat.zero_add, ← e0]; exact h0) (by rw [Nat.zero_add, ← e0]; exact h1)
      (by rw [Nat.zero_add, ← e0]; exact h)
    refine ⟨r, ?_⟩
    unfold randomConfiguration_impl
    rw [hC.nqs, hr]

end CartesianProductOperationVariantTpl

theorem vectorSpace_integrate_difference (n : Nat) :
    ∀ a b : List Int, a.length = (vectorSpace n).nq → b.length = (vectorSpace n).nq →
      (vectorSpace n).integrate a ((vectorSpace n).difference a b) = b := by
  intro a b ha hb
  have hab : a.length = b.length := by rw [ha, hb]
  show List.zipWith (fun x y => x + y) a (List.zipWith (fun x y => y - x) a b) = b
  clear ha hb
  induction a generalizing b with
  | nil =>
    cases b with
    | nil => rfl
    | cons _ _ => simp at hab
  | cons x xs ih =>
    cases b with
    | nil => simp at hab
    | cons y ys =>
      simp only [List.length_cons, Nat.add_right_cancel_iff] at hab
      simp only [List.zipWith_cons_cons, ih ys hab, List.cons.injEq, and_true]
      omega

end pinocchio

/-! ## Lemmas for the algebraic laws -/

namespace pinocchio

variable {Scalar Gen : Type}

theorem differenceBlocks_self [Zero Scalar] :
    ∀ (lgs : List (LieGroupGeneric Scalar Gen)) (q : List Scalar),
      (lgs.map (fun lg => lg.nq)).sum ≤ q.length →
      (∀ lg ∈ lgs, ∀ a : List Scalar, a.length = lg.nq →
        lg.difference a a = List.replicate lg.nv 0) →
      differenceBlocks lgs q q = List.replicate (lgs.map (fun lg => lg.nv)).sum 0
  | [], _, _, _ => rfl
  | lg :: lgs, q, h, hlaw => by
    simp only [List.map_cons, List.sum_cons] at h ⊢
    simp only [differenceBlocks]
    rw [hlaw lg (List.mem_cons_self _ _) _ (by simp; omega),
      differenceBlocks_self lgs _ (by simp; omega)
        (fun l hl => hlaw l (List.mem_cons_of_mem _ hl)),
      List.append_replicate_replicate]

theorem integrateBlocks_zero [Zero Scalar] :
    ∀ (lgs : List (LieGroupGeneric Scalar Gen)) (q : List Scalar),
      q.length = (lgs.map (fun lg => lg.nq)).sum →
      (∀ lg ∈ lgs, ∀ a : List Scalar, a.length = lg.nq →
        lg.integrate a (List.replicate lg.nv 0) = a) →
      integrateBlocks lgs q (List.replicate (lgs.map (fun lg => lg.nv)).sum 0) = q
  | [], q, h, _ => by
    simp only [List.map_nil, List.sum_nil, List.length_eq_zero] at h
    subst h
    rfl
  | lg :: lgs, q, h, hlaw => by
    simp only [List.map_cons, List.sum_cons] at h ⊢
    simp only [integrateBlocks, List.take_replicate, List.drop_replicate]
    rw [Nat.min_eq_left (Nat.le_add_right _ _), Nat.add_sub_cancel_left,
      hlaw lg (List.mem_cons_self _ _) _ (by simp; omega),
      integrateBlocks_zero lgs _ (by simp; omega)
        (fun l hl => hlaw l (List.mem_cons_of_mem _ hl)),
      List.take_append_drop]

theorem differenceBlocks_append :
    ∀ (l1 l2 : List (LieGroupGeneric Scalar Gen)) (a0 a1 b0 b1 : List Scalar),
      a0.length = (l1.map (fun lg => lg.nq)).sum →
      a1.length = (l1.map (fun lg => lg.nq)).sum →
      differenceBlocks (l1 ++ l2) (a0 ++ b0) (a1 ++ b1)
        = differenceBlocks l1 a0 a1 ++ differenceBlocks l2 b0 b1
  | [], l2, a0, a1, b0, b1, h0, h1 => by
    simp only [List.map_nil, List.sum_nil, List.length_eq_zero] at h0 h1
    subst h0
    subst h1
    rfl
  | lg :: l1, l2, a0, a1, b0, b1, h0, h1 => by
    simp only [List.map_cons, List.sum_cons] at h0 h1
    simp only [List.cons_append, differenceBlocks, List.append_assoc]
    rw [List.take_append_of_le_length (by omega), List.take_append_of_le_length (by omega),
      List.drop_append_of_le_length (by omega), List.drop_append_of_le_length (by omega)]
    congr 1
    exact differenceBlocks_append l1 l2 _ _ b0 b1 (by simp; omega) (by simp; omega)

theorem integrateBlocks_append :
    ∀ (l1 l2 : List (LieGroupGeneric Scalar Gen)) (a v b w : List Scalar),
      a.length = (l1.map (fun lg => lg.nq)).sum →
      v.length = (l1.map (fun lg => lg.nv)).sum →
      integrateBlocks (l1 ++ l2) (a ++ b) (v ++ w)
        = integrateBlocks l1 a v ++ integrateBlocks l2 b w
  | [], l2, a, v, b, w, h0, h1 => by
    simp only [List.map_nil, List.sum_nil, List.length_eq_zero] at h0 h1
    subst h0
    subst h1
    rfl
  | lg :: l1, l2, a, v, b, w, h0, h1 => by
    simp only [List.map_cons, List.sum_cons] at h0 h1
    simp only [List.cons_append, integrateBlocks, List.append_assoc]
    rw [List.take_append_of_le_length (by omega), List.take_append_of_le_length (by omega),
      List.drop_append_of_le_length (by omega), List.drop_append_of_le_length (by omega)]
    congr 1
    exact integrateBlocks_append l1 l2 _ _ b w (by simp; omega) (by simp; omega)

/-! ### Closed forms of the sampling loops -/

theorem take_written_block (d x : List Scalar) {i n : Nat} (hx : x.length = n)
    (hi : i + n ≤ d.length) :
    (d.take i ++ x ++ d.drop (i + n)).take (i + n) = d.take i ++ x := by
  apply List.take_left'
  simp only [List.length_append, List.length_take]
  omega

theorem drop_written_block (d x : List Scalar) {i n : Nat} (m : Nat) (hx : x.length = n)
    (hi : i + n ≤ d.length) :
    (d.take i ++ x ++ d.drop (i + n)).drop (i + n + m) = d.drop (i + (n + m)) := by
  have hl : (d.take i ++ x).length = i + n := by
    simp only [List.length_append, List.length_take]
    omega
  rw [← hl, List.drop_append, List.drop_drop, hl]
  congr 1
  omega

theorem written_block_length (d x : List Scalar) {i n : Nat} (hx : x.length = n)
    (hi : i + n ≤ d.length) : (d.take i ++ x ++ d.drop (i + n)).length = d.length := by
  simp only [List.length_append, List.length_take, List.length_drop]
  omega

theorem randomBlocks_length :
    ∀ (lgs : List (LieGroupGeneric Scalar Gen)) (g : Gen),
      (randomBlocks lgs g).1.length = (lgs.map (fun lg => lg.nq)).sum
  | [], _ => rfl
  | lg :: lgs, g => by
    simp only [randomBlocks, List.length_append, List.map_cons, List.sum_cons,
      lg.random_size, randomBlocks_length lgs]

theorem randomConfigurationBlocks_length :
    ∀ (lgs : List (LieGroupGeneric Scalar Gen)) (lower upper : List Scalar) (g : Gen),
      (lgs.map (fun lg => lg.nq)).sum ≤ lower.length →
      (lgs.map (fun lg => lg.nq)).sum ≤ upper.length →
      (randomConfigurationBlocks lgs lower upper g).1.length
        = (lgs.map (fun lg => lg.nq)).sum
  | [], _, _, _, _, _ => rfl
  | lg :: lgs, lower, upper, g, h0, h1 => by
    simp only [List.map_cons, List.sum_cons] at h0 h1 ⊢
    simp only [randomConfigurationBlocks, List.length_append]
    rw [lg.randomConfiguration_size _ _ _ (by simp; omega) (by simp; omega),
      randomConfigurationBlocks_length lgs _ _ _ (by simp; omega) (by simp; omega)]

namespace CartesianProductOperationVariantTpl

theorem random_loop_eq :
    ∀ (lgs : List (LieGroupGeneric Scalar Gen)) (id_q : Nat) (s : List Scalar × Gen),
      id_q + (lgs.map (fun lg => lg.nq)).sum ≤ s.1.length →
      random_loop lgs (lgs.map (fun lg => lg.nq)) id_q s
        = .ok (s.1.take id_q ++ (randomBlocks lgs s.2).1
                ++ s.1.drop (id_q + (lgs.map (fun lg => lg.nq)).sum),
              (randomBlocks lgs s.2).2)
  | [], id_q, s, _ => by
    simp [random_loop, randomBlocks]
  | lg :: lgs, id_q, s, h => by
    simp only [List.map_cons, List.sum_cons] at h ⊢
    have hx := lg.random_size s.2
    simp only [random_loop]
    rw [random_step_eq_some lg (by omega)]
    simp only
    rw [random_loop_eq lgs _ _ (by
      show id_q + lg.nq + _ ≤ (s.1.take id_q ++ (lg.random s.2).1
        ++ s.1.drop (id_q + lg.nq)).length
      rw [written_block_length _ _ hx (by omega)]
      omega)]
    simp only [randomBlocks]
    rw [take_written_block _ _ hx (by omega), drop_written_block _ _ _ hx (by omega)]
    simp only [List.append_assoc]

theorem randomConfiguration_loop_eq (lower upper : List Scalar) :
    ∀ (lgs : List (LieGroupGeneric Scalar Gen)) (id_q : Nat) (s : List Scalar × Gen),
      id_q + (lgs.map (fun lg => lg.nq)).sum ≤ lower.length →
      id_q + (lgs.map (fun lg => lg.nq)).sum ≤ upper.length →
      id_q + (lgs.map (fun lg => lg.nq)).sum ≤ s.1.length →
      randomConfiguration_loop lower upper lgs (lgs.map (fun lg => lg.nq)) id_q s
        = .ok (s.1.take id_q
                ++ (randomConfigurationBlocks lgs (lower.drop id_q) (upper.drop id_q) s.2).1
                ++ s.1.drop (id_q + (lgs.map (fun lg => lg.nq)).sum),
              (randomConfigurationBlocks lgs (lower.drop id_q) (upper.drop id_q) s.2).2)
  | [], id_q, s, _, _, _ => by
    simp [randomConfiguration_loop, randomConfigurationBlocks]
  | lg :: lgs, id_q, s, h0, h1, h => by
    simp only [List.map_cons, List.sum_cons] at h0 h1 h ⊢
    have hx := lg.randomConfiguration_size s.2 ((lower.drop id_q).take lg.nq)
      ((upper.drop id_q).take lg.nq) (by simp; omega) (by simp; omega)
    simp only [randomConfiguration_loop]
    rw [randomConfiguration_step_eq_some lg (by omega) (by omega) (by omega)]
    simp only
    rw [randomConfiguration_loop_eq lower upper lgs _ _ (by omega) (by omega) (by
      show id_q + lg.nq + _ ≤ (s.1.take id_q
        ++ (lg.randomConfiguration s.2 ((lower.drop id_q).take lg.nq)
              ((upper.drop id_q).take lg.nq)).1
        ++ s.1.drop (id_q + lg.nq)).length
      rw [written_block_length _ _ hx (by omega)]
      omega)]
    simp only [randomConfigurationBlocks, List.drop_drop]
    rw [take_written_block _ _ hx (by omega), drop_written_block _ _ _ hx (by omega)]
    simp only [List.append_assoc]

theorem random_impl_eq {C : CartesianProductOperationVariantTpl Scalar Gen}
    (hC : Consistent C) (g : Gen) {qout : List Scalar} (h : C.m_nq ≤ qout.length) :
    random_impl C g qout
      = .ok ((randomBlocks C.liegroups g).1 ++ qout.drop C.m_nq,
              (randomBlocks C.liegroups g).2) := by
  have e0 := hC.nq_sum
  rw [hC.nqs] at e0
  unfold random_impl
  rw [hC.nqs, random_loop_eq C.liegroups 0 (qout, g) (by simp only; omega)]
  simp [← e0]

theorem randomConfiguration_impl_eq {C : CartesianProductOperationVariantTpl Scalar Gen}
    (hC : Consistent C) (g : Gen) {lower upper qout : List Scalar}
    (h0 : C.m_nq ≤ lower.length) (h1 : C.m_nq ≤ upper.length) (h : C.m_nq ≤ qout.length) :
    randomConfiguration_impl C g lower upper qout
      = .ok ((randomConfigurationBlocks C.liegroups lower upper g).1 ++ qout.drop C.m_nq,
              (randomConfigurationBlocks C.liegroups lower upper g).2) := by
  have e0 := hC.nq_sum
  rw [hC.nqs] at e0
  unfold randomConfiguration_impl
  rw [hC.nqs, randomConfiguration_loop_eq lower upper C.liegroups 0 (qout, g) (by omega)
    (by omega) (by simp only; omega)]
  simp [← e0]

end CartesianProductOperationVariantTpl

theorem randomConfigurationBlocks_within [LE Scalar] :
    ∀ (lgs : List (LieGroupGeneric Scalar Gen)) (lower upper : List Scalar) (g : Gen),
      lower.length = (lgs.map (fun lg => lg.nq)).sum →
      List.Forall₂ (fun x y => x ≤ y) lower upper →
      (∀ lg ∈ lgs, ∀ (g : Gen) (lo hi : List Scalar), lo.length = lg.nq →
        List.Forall₂ (fun x y => x ≤ y) lo hi →
        List.Forall₂ (fun x y => x ≤ y) lo (lg.randomConfiguration g lo hi).1 ∧
        List.Forall₂ (fun x y => x ≤ y) (lg.randomConfiguration g lo hi).1 hi) →
      List.Forall₂ (fun x y => x ≤ y) lower (randomConfigurationBlocks lgs lower upper g).1 ∧
      List.Forall₂ (fun x y => x ≤ y) (randomConfigurationBlocks lgs lower upper g).1 upper
  | [], lower, upper, g, h, hle, _ => by
    simp only [List.map_nil, List.sum_nil, List.length_eq_zero] at h
    subst h
    cases hle
    exact ⟨List.Forall₂.nil, List.Forall₂.nil⟩
  | lg :: lgs, lower, upper, g, h, hle, hlaw => by
    simp only [List.map_cons, List.sum_cons] at h
    have hl := hlaw lg (List.mem_cons_self _ _) g (lower.take lg.nq) (upper.take lg.nq)
      (by simp; omega) (List.forall₂_take _ hle)
    have ih := randomConfigurationBlocks_within lgs (lower.drop lg.nq) (upper.drop lg.nq)
      (lg.randomConfiguration g (lower.take lg.nq) (upper.take lg.nq)).2
      (by simp; omega) (List.forall₂_drop _ hle)
      (fun l hl => hlaw l (List.mem_cons_of_mem _ hl))
    simp only [randomConfigurationBlocks]
    constructor
    · have key := List.rel_append hl.1 ih.1
      dsimp only at key
      rwa [List.take_append_drop] at key
    · have key := List.rel_append hl.2 ih.2
      dsimp only at key
      rwa [List.take_append_drop] at key

end pinocchio

namespace pinocchio

theorem forall₂_getElem? {α : Type} {R : α → α → Prop} :
    ∀ {l1 l2 : List α}, List.Forall₂ R l1 l2 →
      ∀ (i : Nat) (a b : α), l1[i]? = some a → l2[i]? = some b → R a b
  | _, _, List.Forall₂.nil, i, a, b, h1, _ => by simp at h1
  | _, _, List.Forall₂.cons h _, 0, a, b, h1, h2 => by
    simp only [List.getElem?_cons_zero, Option.some.injEq] at h1 h2
    subst h1
    subst h2
    exact h
  | _, _, List.Forall₂.cons _ ht, i + 1, a, b, h1, h2 => by
    simp only [List.getElem?_cons_succ] at h1 h2
    exact forall₂_getElem? ht i a b h1 h2

theorem vectorSpace_difference_self (n : Nat) :
    ∀ a : List Int, a.length = (vectorSpace n).nq →
      (vectorSpace n).difference a a = List.replicate (vectorSpace n).nv 0 := by
  intro a ha
  have ha' : a.length = n := ha
  subst ha'
  show List.zipWith (fun x y => y - x) a a = List.replicate a.length 0
  induction a with
  | nil => rfl
  | cons x xs ih =>
    simp only [List.zipWith_cons_cons, List.length_cons, List.replicate_succ, Int.sub_self,
      List.cons.injEq, true_and]
    exact ih rfl

theorem vectorSpace_integrate_zero (n : Nat) :
    ∀ a : List Int, a.length = (vectorSpace n).nq →
      (vectorSpace n).integrate a (List.replicate (vectorSpace n).nv 0) = a := by
  intro a ha
  have ha' : a.length = n := ha
  subst ha'
  show List.zipWith (fun x y => x + y) a (List.replicate a.length 0) = a
  induction a with
  | nil => rfl
  | cons x xs ih =>
    simp only [List.length_cons, List.replicate_succ, List.zipWith_cons_cons, Int.add_zero,
      List.cons.injEq, true_and]
    exact ih rfl

theorem vectorSpace_randomConfiguration_within (n : Nat) :
    ∀ (g : Nat) (lo hi : List Int), lo.length = (vectorSpace n).nq →
      List.Forall₂ (fun x y => x ≤ y) lo hi →
      List.Forall₂ (fun x y => x ≤ y) lo ((vectorSpace n).randomConfiguration g lo hi).1 ∧
      List.Forall₂ (fun x y => x ≤ y) ((vectorSpace n).randomConfiguration g lo hi).1 hi := by
  intro g lo hi _ hle
  exact ⟨List.forall₂_same.mpr (fun x _ => Int.le_refl x), hle⟩

theorem mem_build_pair {lg a b : LieGroupGeneric Int Nat}
    (h : lg ∈ (CartesianProductOperationVariantTpl.build [a, b]).liegroups) :
    lg = a ∨ lg = b := by
  have hmem : lg ∈ [a, b] := h
  simpa using hmem

end pinocchio

namespace pinocchio

namespace CartesianProductOperationVariantTpl

variable {Scalar Gen : Type}

theorem eq_of_members {X Y : CartesianProductOperationVariantTpl Scalar Gen}
    (h1 : X.liegroups = Y.liegroups) (h2 : X.m_nq = Y.m_nq) (h3 : X.m_nv = Y.m_nv)
    (h4 : X.lg_nqs = Y.lg_nqs) (h5 : X.lg_nvs = Y.lg_nvs) (h6 : X.m_name = Y.m_name)
    (h7 : X.m_neutral = Y.m_neutral) : X = Y := by
  cases X
  cases Y
  simp only at h1 h2 h3 h4 h5 h6 h7
  subst h1 h2 h3 h4 h5 h6 h7
  rfl

theorem product_singleton_eq_append [Zero Scalar]
    {C : CartesianProductOperationVariantTpl Scalar Gen} (hC : Consistent C)
    (hne : C.liegroups.length > 0) (h : LieGroupGeneric Scalar Gen) :
    C.product (ctor1 h) = some (C.append h) := by
  have h1 : (ctor1 h : CartesianProductOperationVariantTpl Scalar Gen).m_neutral
      = h.neutral := by
    show (append ctor h).m_neutral = _
    rw [append_m_neutral ctor h rfl]
    rfl
  have h1len : (ctor1 h : CartesianProductOperationVariantTpl Scalar Gen).m_neutral.length
      = (ctor1 h : CartesianProductOperationVariantTpl Scalar Gen).m_nq := by
    rw [h1, h.neutral_size]
    show h.nq = 0 + h.nq
    omega
  have hname : (ctor1 h : CartesianProductOperationVariantTpl Scalar Gen).m_name
      = h.name := by
    show (append ctor h).m_name = _
    rw [append_m_name]
    simp [ctor]
  rw [product_eq_some C (ctor1 h) hC.neutral_length h1len]
  congr 1
  apply eq_of_members
  · rfl
  · show C.m_nq + (0 + h.nq) = C.m_nq + h.nq
    omega
  · show C.m_nv + (0 + h.nv) = C.m_nv + h.nv
    omega
  · rfl
  · rfl
  · show (if (ctor1 h : CartesianProductOperationVariantTpl Scalar Gen).liegroups.length > 0
        then ((if C.liegroups.length > 0 then C.m_name else "") ++ " x ")
          ++ (ctor1 h : CartesianProductOperationVariantTpl Scalar Gen).m_name
        else (if C.liegroups.length > 0 then C.m_name else "")) = (C.append h).m_name
    rw [append_m_name, if_pos hne, hname,
      if_pos (show (ctor1 h : CartesianProductOperationVariantTpl Scalar Gen).liegroups.length
        > 0 from Nat.zero_lt_one), if_pos hne]
  · show C.m_neutral ++ (ctor1 h : CartesianProductOperationVariantTpl Scalar Gen).m_neutral
      = (C.append h).m_neutral
    rw [h1, append_m_neutral C h hC.neutral_length]

end CartesianProductOperationVariantTpl

end pinocchio

/-! ### The dispatch loops, one entry at a time -/

namespace pinocchio

variable {Scalar Gen : Type}

theorem take_succ_of_getElem? {α : Type} {l : List α} {k : Nat} {a : α}
    (h : l[k]? = some a) : l.take (k + 1) = l.take k ++ [a] := by
  rw [List.take_succ, h]
  rfl

namespace CartesianProductOperationVariantTpl

theorem difference_loop_snoc (q0 q1 : List Scalar) (lg : LieGroupGeneric Scalar Gen) :
    ∀ (l1 : List (LieGroupGeneric Scalar Gen)) (id_q id_v : Nat) (d d1 d2 : List Scalar),
      difference_loop q0 q1 l1 (l1.map (fun lg => lg.nq)) (l1.map (fun lg => lg.nv))
        id_q id_v d = .ok d1 →
      difference_step lg lg.nq lg.nv (id_q + (l1.map (fun lg => lg.nq)).sum)
        (id_v + (l1.map (fun lg => lg.nv)).sum) q0 q1 d1 = some d2 →
      difference_loop q0 q1 (l1 ++ [lg]) ((l1 ++ [lg]).map (fun lg => lg.nq))
        ((l1 ++ [lg]).map (fun lg => lg.nv)) id_q id_v d = .ok d2
  | [], id_q, id_v, d, d1, d2, h1, h2 => by
    simp only [difference_loop, Except.ok.injEq] at h1
    subst h1
    simp only [List.map_nil, List.sum_nil, Nat.add_zero] at h2
    simp only [List.nil_append, List.map_cons, List.map_nil, difference_loop, h2]
  | l :: l1, id_q, id_v, d, d1, d2, h1, h2 => by
    simp only [List.map_cons, List.sum_cons, difference_loop] at h1 h2
    simp only [List.cons_append, List.map_cons, difference_loop]
    cases hs : difference_step l l.nq l.nv id_q id_v q0 q1 d with
    | none => rw [hs] at h1; cases h1
    | some e =>
      rw [hs] at h1
      simp only at h1 ⊢
      exact difference_loop_snoc q0 q1 lg l1 _ _ e d1 d2 h1
        (by rw [Nat.add_assoc, Nat.add_assoc]; exact h2)

theorem integrate_loop_snoc (q v : List Scalar) (lg : LieGroupGeneric Scalar Gen) :
    ∀ (l1 : List (LieGroupGeneric Scalar Gen)) (id_q id_v : Nat) (d d1 d2 : List Scalar),
      integrate_loop q v l1 (l1.map (fun lg => lg.nq)) (l1.map (fun lg => lg.nv))
        id_q id_v d = .ok d1 →
      integrate_step lg lg.nq lg.nv (id_q + (l1.map (fun lg => lg.nq)).sum)
        (id_v + (l1.map (fun lg => lg.nv)).sum) q v d1 = some d2 →
      integrate_loop q v (l1 ++ [lg]) ((l1 ++ [lg]).map (fun lg => lg.nq))
        ((l1 ++ [lg]).map (fun lg => lg.nv)) id_q id_v d = .ok d2
  | [], id_q, id_v, d, d1, d2, h1, h2 => by
    simp only [integrate_loop, Except.ok.injEq] at h1
    subst h1
    simp only [List.map_nil, List.sum_nil, Nat.add_zero] at h2
    simp only [List.nil_append, List.map_cons, List.map_nil, integrate_loop, h2]
  | l :: l1, id_q, id_v, d, d1, d2, h1, h2 => by
    simp only [List.map_cons, List.sum_cons, integrate_loop] at h1 h2
    simp only [List.cons_append, List.map_cons, integrate_loop]
    cases hs : integrate_step l l.nq l.nv id_q id_v q v d with
    | none => rw [hs] at h1; cases h1
    | some e =>
      rw [hs] at h1
      simp only at h1 ⊢
      exact integrate_loop_snoc q v lg l1 _ _ e d1 d2 h1
        (by rw [Nat.add_assoc, Nat.add_assoc]; exact h2)

theorem squaredDistance_loop_snoc [Add Scalar] (q0 q1 : List Scalar)
    (lg : LieGroupGeneric Scalar Gen) (a b : List Scalar) :
    ∀ (l1 : List (LieGroupGeneric Scalar Gen)) (id_q : Nat) (d2 acc : Scalar),
      squaredDistance_loop q0 q1 l1 (l1.map (fun lg => lg.nq)) id_q d2 = .ok acc →
      segment q0 (id_q + (l1.map (fun lg => lg.nq)).sum) lg.nq = some a →
      segment q1 (id_q + (l1.map (fun lg => lg.nq)).sum) lg.nq = some b →
      squaredDistance_loop q0 q1 (l1 ++ [lg]) ((l1 ++ [lg]).map (fun lg => lg.nq)) id_q d2
        = .ok (acc + lg.squaredDistance a b)
  | [], id_q, d2, acc, h1, ha, hb => by
    simp only [squaredDistance_loop, Except.ok.injEq] at h1
    subst h1
    simp only [List.map_nil, List.sum_nil, Nat.add_zero] at ha hb
    simp only [List.nil_append, List.map_cons, List.map_nil, squaredDistance_loop, ha, hb]
  | l :: l1, id_q, d2, acc, h1, ha, hb => by
    simp only [List.map_cons, List.sum_cons, squaredDistance_loop] at h1 ha hb
    simp only [List.cons_append, List.map_cons, squaredDistance_loop]
    cases hs0 : segment q0 id_q l.nq with
    | none => rw [hs0] at h1; cases h1
    | some x =>
      cases hs1 : segment q1 id_q l.nq with
      | none => rw [hs0, hs1] at h1; cases h1
      | some y =>
        rw [hs0, hs1] at h1
        simp only at h1 ⊢
        exact squaredDistance_loop_snoc q0 q1 lg a b l1 _ _ acc h1
          (by rw [Nat.add_assoc]; exact ha) (by rw [Nat.add_assoc]; exact hb)

theorem random_loop_snoc (lg : LieGroupGeneric Scalar Gen) :
    ∀ (l1 : List (LieGroupGeneric Scalar Gen)) (id_q : Nat) (s s1 s2 : List Scalar × Gen),
      random_loop l1 (l1.map (fun lg => lg.nq)) id_q s = .ok s1 →
      random_step lg lg.nq (id_q + (l1.map (fun lg => lg.nq)).sum) s1 = some s2 →
      random_loop (l1 ++ [lg]) ((l1 ++ [lg]).map (fun lg => lg.nq)) id_q s = .ok s2
  | [], id_q, s, s1, s2, h1, h2 => by
    simp only [random_loop, Except.ok.injEq] at h1
    subst h1
    simp only [List.map_nil, List.sum_nil, Nat.add_zero] at h2
    simp only [List.nil_append, List.map_cons, List.map_nil, random_loop, h2]
  | l :: l1, id_q, s, s1, s2, h1, h2 => by
    simp only [List.map_cons, List.sum_cons, random_loop] at h1 h2
    simp only [List.cons_append, List.map_cons, random_loop]
    cases hs : random_step l l.nq id_q s with
    | none => rw [hs] at h1; cases h1
    | some e =>
      rw [hs] at h1
      simp only at h1 ⊢
      exact random_loop_snoc lg l1 _ e s1 s2 h1 (by rw [Nat.add_assoc]; exact h2)

theorem randomConfiguration_loop_snoc (lower upper : List Scalar)
    (lg : LieGroupGeneric Scalar Gen) :
    ∀ (l1 : List (LieGroupGeneric Scalar Gen)) (id_q : Nat) (s s1 s2 : List Scalar × Gen),
      randomConfiguration_loop lower upper l1 (l1.map (fun lg => lg.nq)) id_q s = .ok s1 →
      randomConfiguration_step lg lg.nq (id_q + (l1.map (fun lg => lg.nq)).sum) lower upper s1
        = some s2 →
      randomConfiguration_loop lower upper (l1 ++ [lg]) ((l1 ++ [lg]).map (fun lg => lg.nq))
        id_q s = .ok s2
  | [], id_q, s, s1, s2, h1, h2 => by
    simp only [randomConfiguration_loop, Except.ok.injEq] at h1
    subst h1
    simp only [List.map_nil, List.sum_nil, Nat.add_zero] at h2
    simp only [List.nil_append, List.map_cons, List.map_nil, randomConfiguration_loop, h2]
  | l :: l1, id_q, s, s1, s2, h1, h2 => by
    simp only [List.map_cons, List.sum_cons, randomConfiguration_loop] at h1 h2
    simp only [List.cons_append, List.map_cons, randomConfiguration_loop]
    cases hs : randomConfiguration_step l l.nq id_q lower upper s with
    | none => rw [hs] at h1; cases h1
    | some e =>
      rw [hs] at h1
      simp only at h1 ⊢
      exact randomConfiguration_loop_snoc lower upper lg l1 _ e s1 s2 h1
        (by rw [Nat.add_assoc]; exact h2)

end CartesianProductOperationVariantTpl

end pinocchio

namespace pinocchio

variable {Scalar Gen : Type}

theorem sum_take_le_sum_take :
    ∀ (l : List Nat) (j k : Nat), j ≤ k → (l.take j).sum ≤ (l.take k).sum
  | [], _, _, _ => by simp
  | _ :: _, 0, _, _ => by simp
  | x :: l, j + 1, 0, h => by omega
  | x :: l, j + 1, k + 1, h => by
    simp only [List.take_succ_cons, List.sum_cons]
    have := sum_take_le_sum_take l j k (by omega)
    omega

theorem sum_take_le_sum : ∀ (l : List Nat) (k : Nat), (l.take k).sum ≤ l.sum
  | [], _ => by simp
  | _ :: _, 0 => by simp
  | x :: l, k + 1 => by
    simp only [List.take_succ_cons, List.sum_cons]
    have := sum_take_le_sum l k
    omega

theorem sum_take_succ_of_getElem? {l : List Nat} {k n : Nat} (h : l[k]? = some n) :
    (l.take (k + 1)).sum = (l.take k).sum + n := by
  rw [take_succ_of_getElem? h, List.sum_append]
  simp

namespace CartesianProductOperationVariantTpl

theorem Consistent.take_nqs {C : CartesianProductOperationVariantTpl Scalar Gen}
    (hC : Consistent C) (k : Nat) :
    C.lg_nqs.take k = (C.liegroups.take k).map (fun lg => lg.nq) := by
  rw [hC.nqs, List.map_take]

theorem Consistent.take_nvs {C : CartesianProductOperationVariantTpl Scalar Gen}
    (hC : Consistent C) (k : Nat) :
    C.lg_nvs.take k = (C.liegroups.take k).map (fun lg => lg.nv) := by
  rw [hC.nvs, List.map_take]

theorem Consistent.prefix_nq_le {C : CartesianProductOperationVariantTpl Scalar Gen}
    (hC : Consistent C) (k : Nat) :
    ((C.liegroups.take k).map (fun lg => lg.nq)).sum ≤ C.m_nq := by
  rw [hC.nq_sum, ← hC.take_nqs]
  exact sum_take_le_sum C.lg_nqs k

theorem Consistent.prefix_nv_le {C : CartesianProductOperationVariantTpl Scalar Gen}
    (hC : Consistent C) (k : Nat) :
    ((C.liegroups.take k).map (fun lg => lg.nv)).sum ≤ C.m_nv := by
  rw [hC.nv_sum, ← hC.take_nvs]
  exact sum_take_le_sum C.lg_nvs k

end CartesianProductOperationVariantTpl

end pinocchio

namespace pinocchio

variable {Scalar Gen : Type}

namespace CartesianProductOperationVariantTpl

theorem difference_entry {C : CartesianProductOperationVariantTpl Scalar Gen}
    (hC : Consistent C) {q0 q1 d : List Scalar} (h0 : q0.length = C.m_nq)
    (h1 : q1.length = C.m_nq) (hd : d.length = C.m_nv) {k : Nat}
    {lg : LieGroupGeneric Scalar Gen} (hk : C.liegroups[k]? = some lg) :
    ∃ dk dk1,
      difference_loop q0 q1 (C.liegroups.take k) (C.lg_nqs.take k) (C.lg_nvs.take k) 0 0 d
        = .ok dk ∧
      difference_step lg lg.nq lg.nv (offset_q C k) (offset_v C k) q0 q1 dk = some dk1 ∧
      difference_loop q0 q1 (C.liegroups.take (k + 1)) (C.lg_nqs.take (k + 1))
        (C.lg_nvs.take (k + 1)) 0 0 d = .ok dk1 := by
  have bq := hC.offset_q_le hk
  have bv := hC.offset_v_le hk
  rw [hC.take_nqs, hC.take_nvs, hC.take_nqs, hC.take_nvs]
  rw [hC.offset_q_eq] at bq ⊢
  rw [hC.offset_v_eq] at bv ⊢
  obtain ⟨dk, hok, hlen⟩ : ∃ dk,
      difference_loop q0 q1 (C.liegroups.take k)
        ((C.liegroups.take k).map (fun lg => lg.nq))
        ((C.liegroups.take k).map (fun lg => lg.nv)) 0 0 d = .ok dk ∧
      dk.length = d.length :=
    ⟨_, difference_loop_ok q0 q1 (C.liegroups.take k) 0 0 d (by omega) (by omega) (by omega),
      written_block_length d _
        (differenceBlocks_length _ _ _ (by simp only [List.drop_zero]; omega)
          (by simp only [List.drop_zero]; omega))
        (by omega)⟩
  have hstep : difference_step lg lg.nq lg.nv
      ((C.liegroups.take k).map (fun lg => lg.nq)).sum
      ((C.liegroups.take k).map (fun lg => lg.nv)).sum q0 q1 dk = some _ :=
    difference_step_eq_some lg (by omega) (by omega) (by rw [hlen]; omega)
  refine ⟨_, _, hok, hstep, ?_⟩
  rw [take_succ_of_getElem? hk]
  exact difference_loop_snoc q0 q1 lg _ 0 0 d _ _ hok
    (by rw [Nat.zero_add, Nat.zero_add]; exact hstep)

theorem integrate_entry {C : CartesianProductOperationVariantTpl Scalar Gen}
    (hC : Consistent C) {q v qout : List Scalar} (h0 : q.length = C.m_nq)
    (h1 : v.length = C.m_nv) (hd : qout.length = C.m_nq) {k : Nat}
    {lg : LieGroupGeneric Scalar Gen} (hk : C.liegroups[k]? = some lg) :
    ∃ dk dk1,
      integrate_loop q v (C.liegroups.take k) (C.lg_nqs.take k) (C.lg_nvs.take k) 0 0 qout
        = .ok dk ∧
      integrate_step lg lg.nq lg.nv (offset_q C k) (offset_v C k) q v dk = some dk1 ∧
      integrate_loop q v (C.liegroups.take (k + 1)) (C.lg_nqs.take (k + 1))
        (C.lg_nvs.take (k + 1)) 0 0 qout = .ok dk1 := by
  have bq := hC.offset_q_le hk
  have bv := hC.offset_v_le hk
  rw [hC.take_nqs, hC.take_nvs, hC.take_nqs, hC.take_nvs]
  rw [hC.offset_q_eq] at bq ⊢
  rw [hC.offset_v_eq] at bv ⊢
  obtain ⟨dk, hok, hlen⟩ : ∃ dk,
      integrate_loop q v (C.liegroups.take k)
        ((C.liegroups.take k).map (fun lg => lg.nq))
        ((C.liegroups.take k).map (fun lg => lg.nv)) 0 0 qout = .ok dk ∧
      dk.length = qout.length :=
    ⟨_, integrate_loop_ok q v (C.liegroups.take k) 0 0 qout (by omega) (by omega) (by omega),
      written_block_length qout _
        (integrateBlocks_length _ _ _ (by simp only [List.drop_zero]; omega)
          (by simp only [List.drop_zero]; omega))
        (by omega)⟩
  have hstep : integrate_step lg lg.nq lg.nv
      ((C.liegroups.take k).map (fun lg => lg.nq)).sum
      ((C.liegroups.take k).map (fun lg => lg.nv)).sum q v dk = some _ :=
    integrate_step_eq_some lg (by omega) (by omega) (by rw [hlen]; omega)
  refine ⟨_, _, hok, hstep, ?_⟩
  rw [take_succ_of_getElem? hk]
  exact integrate_loop_snoc q v lg _ 0 0 qout _ _ hok
    (by rw [Nat.zero_add, Nat.zero_add]; exact hstep)

theorem squaredDistance_entry [Add Scalar]
    {C : CartesianProductOperationVariantTpl Scalar Gen}
    (hC : Consistent C) {q0 q1 : List Scalar} (h0 : q0.length = C.m_nq)
    (h1 : q1.length = C.m_nq) (d2 : Scalar) {k : Nat}
    {lg : LieGroupGeneric Scalar Gen} (hk : C.liegroups[k]? = some lg) :
    ∃ acc a b,
      squaredDistance_loop q0 q1 (C.liegroups.take k) (C.lg_nqs.take k) 0 d2 = .ok acc ∧
      segment q0 (offset_q C k) lg.nq = some a ∧
      segment q1 (offset_q C k) lg.nq = some b ∧
      squaredDistance_loop q0 q1 (C.liegroups.take (k + 1)) (C.lg_nqs.take (k + 1)) 0 d2
        = .ok (acc + lg.squaredDistance a b) := by
  have bq := hC.offset_q_le hk
  rw [hC.take_nqs, hC.take_nqs]
  rw [hC.offset_q_eq] at bq ⊢
  have hok := squaredDistance_loop_ok q0 q1 (C.liegroups.take k) 0 d2 (by omega) (by omega)
  have ha : segment q0 ((C.liegroups.take k).map (fun lg => lg.nq)).sum lg.nq = some _ :=
    segment_eq_some (by omega)
  have hb : segment q1 ((C.liegroups.take k).map (fun lg => lg.nq)).sum lg.nq = some _ :=
    segment_eq_some (by omega)
  refine ⟨_, _, _, hok, ha, hb, ?_⟩
  rw [take_succ_of_getElem? hk]
  exact squaredDistance_loop_snoc q0 q1 lg _ _ _ 0 d2 _ hok
    (by rw [Nat.zero_add]; exact ha) (by rw [Nat.zero_add]; exact hb)

theorem random_entry {C : CartesianProductOperationVariantTpl Scalar Gen}
    (hC : Consistent C) (g : Gen) {qout : List Scalar} (hd : qout.length = C.m_nq)
    {k : Nat} {lg : LieGroupGeneric Scalar Gen} (hk : C.liegroups[k]? = some lg) :
    ∃ sk sk1,
      random_loop (C.liegroups.take k) (C.lg_nqs.take k) 0 (qout, g) = .ok sk ∧
      random_step lg lg.nq (offset_q C k) sk = some sk1 ∧
      random_loop (C.liegroups.take (k + 1)) (C.lg_nqs.take (k + 1)) 0 (qout, g)
        = .ok sk1 := by
  have bq := hC.offset_q_le hk
  rw [hC.take_nqs, hC.take_nqs]
  rw [hC.offset_q_eq] at bq ⊢
  obtain ⟨sk, hok, hlen⟩ := random_loop_ok (C.liegroups.take k) 0 (qout, g)
    (show 0 + _ ≤ qout.length by omega)
  have hlen' : sk.1.length = qout.length := hlen
  have hstep : random_step lg lg.nq ((C.liegroups.take k).map (fun lg => lg.nq)).sum sk
      = some _ := random_step_eq_some lg (by rw [hlen']; omega)
  refine ⟨_, _, hok, hstep, ?_⟩
  rw [take_succ_of_getElem? hk]
  exact random_loop_snoc lg _ 0 (qout, g) _ _ hok (by rw [Nat.zero_add]; exact hstep)

theorem randomConfiguration_entry {C : CartesianProductOperationVariantTpl Scalar Gen}
    (hC : Consistent C) (g : Gen) {lower upper qout : List Scalar}
    (h0 : lower.length = C.m_nq) (h1 : upper.length = C.m_nq) (hd : qout.length = C.m_nq)
    {k : Nat} {lg : LieGroupGeneric Scalar Gen} (hk : C.liegroups[k]? = some lg) :
    ∃ sk sk1,
      randomConfiguration_loop lower upper (C.liegroups.take k) (C.lg_nqs.take k) 0 (qout, g)
        = .ok sk ∧
      randomConfiguration_step lg lg.nq (offset_q C k) lower upper sk = some sk1 ∧
      randomConfiguration_loop lower upper (C.liegroups.take (k + 1)) (C.lg_nqs.take (k + 1))
        0 (qout, g) = .ok sk1 := by
  have bq := hC.offset_q_le hk
  rw [hC.take_nqs, hC.take_nqs]
  rw [hC.offset_q_eq] at bq ⊢
  obtain ⟨sk, hok, hlen⟩ := randomConfiguration_loop_ok lower upper (C.liegroups.take k) 0
    (qout, g) (by omega) (by omega) (show 0 + _ ≤ qout.length by omega)
  have hlen' : sk.1.length = qout.length := hlen
  have hstep : randomConfiguration_step lg lg.nq
      ((C.liegroups.take k).map (fun lg => lg.nq)).sum lower upper sk = some _ :=
    randomConfiguration_step_eq_some lg (by omega) (by omega) (by rw [hlen']; omega)
  refine ⟨_, _, hok, hstep, ?_⟩
  rw [take_succ_of_getElem? hk]
  exact randomConfiguration_loop_snoc lower upper lg _ 0 (qout, g) _ _ hok
    (by rw [Nat.zero_add]; exact hstep)

end CartesianProductOperationVariantTpl

end pinocchio

/-! ### Only the leading coefficients are used -/

namespace pinocchio

variable {Scalar Gen : Type}

theorem differenceBlocks_take :
    ∀ (lgs : List (LieGroupGeneric Scalar Gen)) (q0 q1 : List Scalar) (n : Nat),
      (lgs.map (fun lg => lg.nq)).sum ≤ n →
      differenceBlocks lgs (q0.take n) (q1.take n) = differenceBlocks lgs q0 q1
  | [], _, _, _, _ => rfl
  | lg :: lgs, q0, q1, n, h => by
    simp only [List.map_cons, List.sum_cons] at h
    simp only [differenceBlocks, List.take_take, List.drop_take]
    rw [Nat.min_eq_left (by omega),
      differenceBlocks_take lgs (q0.drop lg.nq) (q1.drop lg.nq) (n - lg.nq) (by omega)]

theorem integrateBlocks_take :
    ∀ (lgs : List (LieGroupGeneric Scalar Gen)) (q v : List Scalar) (n m : Nat),
      (lgs.map (fun lg => lg.nq)).sum ≤ n →
      (lgs.map (fun lg => lg.nv)).sum ≤ m →
      integrateBlocks lgs (q.take n) (v.take m) = integrateBlocks lgs q v
  | [], _, _, _, _, _, _ => rfl
  | lg :: lgs, q, v, n, m, h, hm => by
    simp only [List.map_cons, List.sum_cons] at h hm
    simp only [integrateBlocks, List.take_take, List.drop_take]
    rw [Nat.min_eq_left (by omega), Nat.min_eq_left (by omega),
      integrateBlocks_take lgs (q.drop lg.nq) (v.drop lg.nv) (n - lg.nq) (m - lg.nv)
        (by omega) (by omega)]

theorem squaredDistanceSum_take [Add Scalar] :
    ∀ (lgs : List (LieGroupGeneric Scalar Gen)) (q0 q1 : List Scalar) (n : Nat)
      (d2 : Scalar),
      (lgs.map (fun lg => lg.nq)).sum ≤ n →
      squaredDistanceSum lgs (q0.take n) (q1.take n) d2 = squaredDistanceSum lgs q0 q1 d2
  | [], _, _, _, _, _ => rfl
  | lg :: lgs, q0, q1, n, d2, h => by
    simp only [List.map_cons, List.sum_cons] at h
    simp only [squaredDistanceSum, List.take_take, List.drop_take]
    rw [Nat.min_eq_left (by omega),
      squaredDistanceSum_take lgs (q0.drop lg.nq) (q1.drop lg.nq) (n - lg.nq) _ (by omega)]

theorem randomConfigurationBlocks_take :
    ∀ (lgs : List (LieGroupGeneric Scalar Gen)) (lower upper : List Scalar) (n : Nat)
      (g : Gen),
      (lgs.map (fun lg => lg.nq)).sum ≤ n →
      randomConfigurationBlocks lgs (lower.take n) (upper.take n) g
        = randomConfigurationBlocks lgs lower upper g
  | [], _, _, _, _, _ => rfl
  | lg :: lgs, lower, upper, n, g, h => by
    simp only [List.map_cons, List.sum_cons] at h
    simp only [randomConfigurationBlocks, List.take_take, List.drop_take]
    rw [Nat.min_eq_left (by omega),
      randomConfigurationBlocks_take lgs (lower.drop lg.nq) (upper.drop lg.nq) (n - lg.nq) _
        (by omega)]

namespace CartesianProductOperationVariantTpl

theorem difference_impl_leading {C : CartesianProductOperationVariantTpl Scalar Gen}
    (hC : Consistent C) {q0 q1 d : List Scalar} (h0 : C.m_nq ≤ q0.length)
    (h1 : C.m_nq ≤ q1.length) (hd : C.m_nv ≤ d.length) :
    ∃ r, difference_impl C (q0.take C.m_nq) (q1.take C.m_nq) (d.take C.m_nv) = .ok r ∧
      r.length = C.m_nv ∧
      difference_impl C q0 q1 d = .ok (r ++ d.drop C.m_nv) := by
  have e0 := hC.nq_sum
  have ev := hC.nv_sum
  rw [hC.nqs] at e0
  rw [hC.nvs] at ev
  refine ⟨differenceBlocks C.liegroups q0 q1, ?_, ?_, difference_impl_eq hC h0 h1 hd⟩
  · rw [difference_impl_eq hC (by rw [List.length_take]; omega)
      (by rw [List.length_take]; omega) (by rw [List.length_take]; omega),
      List.drop_of_length_le (by rw [List.length_take]; omega), List.append_nil,
      differenceBlocks_take _ _ _ _ (by omega)]
  · rw [differenceBlocks_length _ _ _ (by omega) (by omega), ev]

theorem integrate_impl_leading {C : CartesianProductOperationVariantTpl Scalar Gen}
    (hC : Consistent C) {q v qout : List Scalar} (h0 : C.m_nq ≤ q.length)
    (h1 : C.m_nv ≤ v.length) (hd : C.m_nq ≤ qout.length) :
    ∃ r, integrate_impl C (q.take C.m_nq) (v.take C.m_nv) (qout.take C.m_nq) = .ok r ∧
      r.length = C.m_nq ∧
      integrate_impl C q v qout = .ok (r ++ qout.drop C.m_nq) := by
  have e0 := hC.nq_sum
  have ev := hC.nv_sum
  rw [hC.nqs] at e0
  rw [hC.nvs] at ev
  refine ⟨integrateBlocks C.liegroups q v, ?_, ?_, integrate_impl_eq hC h0 h1 hd⟩
  · rw [integrate_impl_eq hC (by rw [List.length_take]; omega)
      (by rw [List.length_take]; omega) (by rw [List.length_take]; omega),
      List.drop_of_length_le (by rw [List.length_take]; omega), List.append_nil,
      integrateBlocks_take _ _ _ _ _ (by omega) (by omega)]
  · rw [integrateBlocks_length _ _ _ (by omega) (by omega), e0]

theorem squaredDistance_loop_leading [Add Scalar]
    {C : CartesianProductOperationVariantTpl Scalar Gen}
    (hC : Consistent C) {q0 q1 : List Scalar} (h0 : C.m_nq ≤ q0.length)
    (h1 : C.m_nq ≤ q1.length) (d2 : Scalar) :
    ∃ acc,
      squaredDistance_loop (q0.take C.m_nq) (q1.take C.m_nq) C.liegroups C.lg_nqs 0 d2
        = .ok acc ∧
      squaredDistance_loop q0 q1 C.liegroups C.lg_nqs 0 d2 = .ok acc := by
  have e0 := hC.nq_sum
  rw [hC.nqs] at e0
  refine ⟨squaredDistanceSum C.liegroups q0 q1 d2, ?_, ?_⟩
  · rw [hC.nqs, squaredDistance_loop_ok _ _ C.liegroups 0 d2
      (by rw [List.length_take]; omega) (by rw [List.length_take]; omega)]
    simp only [List.drop_zero]
    rw [squaredDistanceSum_take _ _ _ _ _ (by omega)]
  · rw [hC.nqs, squaredDistance_loop_ok q0 q1 C.liegroups 0 d2 (by omega) (by omega)]
    simp only [List.drop_zero]

theorem random_impl_leading {C : CartesianProductOperationVariantTpl Scalar Gen}
    (hC : Consistent C) (g : Gen) {qout : List Scalar} (h : C.m_nq ≤ qout.length) :
    ∃ r g1, random_impl C g (qout.take C.m_nq) = .ok (r, g1) ∧
      r.length = C.m_nq ∧
      random_impl C g qout = .ok (r ++ qout.drop C.m_nq, g1) := by
  have e0 := hC.nq_sum
  rw [hC.nqs] at e0
  refine ⟨(randomBlocks C.liegroups g).1, (randomBlocks C.liegroups g).2, ?_, ?_,
    random_impl_eq hC g h⟩
  · rw [random_impl_eq hC g (by rw [List.length_take]; omega),
      List.drop_of_length_le (by rw [List.length_take]; omega), List.append_nil]
  · rw [randomBlocks_length, e0]

theorem randomConfiguration_impl_leading {C : CartesianProductOperationVariantTpl Scalar Gen}
    (hC : Consistent C) (g : Gen) {lower upper qout : List Scalar}
    (h0 : C.m_nq ≤ lower.length) (h1 : C.m_nq ≤ upper.length) (h : C.m_nq ≤ qout.length) :
    ∃ r g1,
      randomConfiguration_impl C g (lower.take C.m_nq) (upper.take C.m_nq)
        (qout.take C.m_nq) = .ok (r, g1) ∧
      r.length = C.m_nq ∧
      randomConfiguration_impl C g lower upper qout = .ok (r ++ qout.drop C.m_nq, g1) := by
  have e0 := hC.nq_sum
  rw [hC.nqs] at e0
  refine ⟨(randomConfigurationBlocks C.liegroups lower upper g).1,
    (randomConfigurationBlocks C.liegroups lower upper g).2, ?_, ?_,
    randomConfiguration_impl_eq hC g h0 h1 h⟩
  · rw [randomConfiguration_impl_eq hC g (by rw [List.length_take]; omega)
      (by rw [List.length_take]; omega) (by rw [List.length_take]; omega),
      List.drop_of_length_le (by rw [List.length_take]; omega), List.append_nil,
      randomConfigurationBlocks_take _ _ _ _ _ (by omega)]
  · rw [randomConfigurationBlocks_length _ _ _ _ (by omega) (by omega), e0]

end CartesianProductOperationVariantTpl

end pinocchio

/-! ## The claims -/

namespace pinocchio

open CartesianProductOperationVariantTpl

variable {Scalar Gen : Type}

/-- C1. For every composite `C` a program can hold (its cached per-entry dimensions
are then those of its handles, `Reachable.consistent`) and all `q0`, `q1` of length
`C.nq()` and `d` of length `C.nv()`: `difference_impl` completes, and for every entry
`k` with handle `lg` the block of the output at the tangent offset of `k` (the sum of
the `nv` of the entries before it), of length `lg.nv`, is `lg.difference` of the
blocks of `q0` and `q1` at the configuration offset of `k`, of length `lg.nq`.
Consequently, inputs that agree with `q0` and `q1` on the blocks of entry `k` give
the same output block for entry `k`. -/
theorem difference_writes_each_slice [Zero Scalar]
    (C : CartesianProductOperationVariantTpl Scalar Gen) (hC : Reachable C)
    (q0 q1 d : List Scalar) (h0 : q0.length = C.nq) (h1 : q1.length = C.nq)
    (hd : d.length = C.nv) :
    ∃ d', difference_impl C q0 q1 d = .ok d' ∧ d'.length = C.nv ∧
      (∀ (k : Nat) (lg : LieGroupGeneric Scalar Gen), C.liegroups[k]? = some lg →
        ∃ a b, segment q0 (offset_q C k) lg.nq = some a ∧
          segment q1 (offset_q C k) lg.nq = some b ∧
          segment d' (offset_v C k) lg.nv = some (lg.difference a b)) ∧
      (∀ (k : Nat) (lg : LieGroupGeneric Scalar Gen) (p0 p1 e : List Scalar),
        C.liegroups[k]? = some lg →
        p0.length = C.nq → p1.length = C.nq → e.length = C.nv →
        segment p0 (offset_q C k) lg.nq = segment q0 (offset_q C k) lg.nq →
        segment p1 (offset_q C k) lg.nq = segment q1 (offset_q C k) lg.nq →
        ∃ e', difference_impl C p0 p1 e = .ok e' ∧
          segment e' (offset_v C k) lg.nv = segment d' (offset_v C k) lg.nv) := by
  obtain ⟨d', hd', hlen, hslice⟩ := difference_impl_slice hC.consistent h0 h1 hd
  refine ⟨d', hd', hlen, hslice, ?_⟩
  intro k lg p0 p1 e hk hp0 hp1 he hs0 hs1
  obtain ⟨e', he', _, hslice'⟩ := difference_impl_slice hC.consistent hp0 hp1 he
  refine ⟨e', he', ?_⟩
  obtain ⟨a, b, ha, hb, hab⟩ := hslice k lg hk
  obtain ⟨a', b', ha', hb', hab'⟩ := hslice' k lg hk
  rw [hs0, ha] at ha'
  rw [hs1, hb] at hb'
  injection ha' with ha'
  injection hb' with hb'
  rw [hab, hab', ha', hb']

/-- Instance of C1: the composite of `planar` and `vectorSpace 3`,
`q0 = [1,0,0,0,0]`, `q1 = [0,1,1,1,1]`. -/
theorem difference_writes_each_slice_witness :
    ∃ d', difference_impl (ctor2 planar (vectorSpace 3)) [1, 0, 0, 0, 0] [0, 1, 1, 1, 1]
        [0, 0, 0, 0] = .ok d' ∧
      d'.length = (ctor2 planar (vectorSpace 3)).nv ∧
      (∀ (k : Nat) (lg : LieGroupGeneric Int Nat),
        (ctor2 planar (vectorSpace 3)).liegroups[k]? = some lg →
        ∃ a b, segment [1, 0, 0, 0, 0] (offset_q (ctor2 planar (vectorSpace 3)) k) lg.nq
            = some a ∧
          segment [0, 1, 1, 1, 1] (offset_q (ctor2 planar (vectorSpace 3)) k) lg.nq
            = some b ∧
          segment d' (offset_v (ctor2 planar (vectorSpace 3)) k) lg.nv
            = some (lg.difference a b)) ∧
      (∀ (k : Nat) (lg : LieGroupGeneric Int Nat) (p0 p1 e : List Int),
        (ctor2 planar (vectorSpace 3)).liegroups[k]? = some lg →
        p0.length = (ctor2 planar (vectorSpace 3)).nq →
        p1.length = (ctor2 planar (vectorSpace 3)).nq →
        e.length = (ctor2 planar (vectorSpace 3)).nv →
        segment p0 (offset_q (ctor2 planar (vectorSpace 3)) k) lg.nq
          = segment [1, 0, 0, 0, 0] (offset_q (ctor2 planar (vectorSpace 3)) k) lg.nq →
        segment p1 (offset_q (ctor2 planar (vectorSpace 3)) k) lg.nq
          = segment [0, 1, 1, 1, 1] (offset_q (ctor2 planar (vectorSpace 3)) k) lg.nq →
        ∃ e', difference_impl (ctor2 planar (vectorSpace 3)) p0 p1 e = .ok e' ∧
          segment e' (offset_v (ctor2 planar (vectorSpace 3)) k) lg.nv
            = segment d' (offset_v (ctor2 planar (vectorSpace 3)) k) lg.nv) :=
  difference_writes_each_slice (ctor2 planar (vectorSpace 3))
    (Reachable.append _ (Reachable.append _ Reachable.ctor))
    [1, 0, 0, 0, 0] [0, 1, 1, 1, 1] [0, 0, 0, 0] (by decide) (by decide) (by decide)

/-- C2. For every composite `C` a program can hold and all `q` of length `C.nq()`,
`v` of length `C.nv()` and `qout` of length `C.nq()`: `integrate_impl` completes, and
for every entry `k` with handle `lg` the block of the output at the configuration
offset of `k`, of length `lg.nq`, is `lg.integrate` of the block of `q` at that same
offset and the block of `v` at the tangent offset of `k`, of length `lg.nv`. -/
theorem integrate_writes_each_slice [Zero Scalar]
    (C : CartesianProductOperationVariantTpl Scalar Gen) (hC : Reachable C)
    (q v qout : List Scalar) (h0 : q.length = C.nq) (h1 : v.length = C.nv)
    (hd : qout.length = C.nq) :
    ∃ r, integrate_impl C q v qout = .ok r ∧ r.length = C.nq ∧
      ∀ (k : Nat) (lg : LieGroupGeneric Scalar Gen), C.liegroups[k]? = some lg →
        ∃ a b, segment q (offset_q C k) lg.nq = some a ∧
          segment v (offset_v C k) lg.nv = some b ∧
          segment r (offset_q C k) lg.nq = some (lg.integrate a b) :=
  integrate_impl_slice hC.consistent h0 h1 hd

/-- Instance of C2: the composite of `planar` and `vectorSpace 3`,
`q = [1,0,0,0,0]`, `v = [2,1,1,1]`. -/
theorem integrate_writes_each_slice_witness :
    ∃ r, integrate_impl (ctor2 planar (vectorSpace 3)) [1, 0, 0, 0, 0] [2, 1, 1, 1]
        [9, 9, 9, 9, 9] = .ok r ∧
      r.length = (ctor2 planar (vectorSpace 3)).nq ∧
      ∀ (k : Nat) (lg : LieGroupGeneric Int Nat),
        (ctor2 planar (vectorSpace 3)).liegroups[k]? = some lg →
        ∃ a b, segment [1, 0, 0, 0, 0] (offset_q (ctor2 planar (vectorSpace 3)) k) lg.nq
            = some a ∧
          segment [2, 1, 1, 1] (offset_v (ctor2 planar (vectorSpace 3)) k) lg.nv
            = some b ∧
          segment r (offset_q (ctor2 planar (vectorSpace 3)) k) lg.nq
            = some (lg.integrate a b) :=
  integrate_writes_each_slice (ctor2 planar (vectorSpace 3))
    (Reachable.append _ (Reachable.append _ Reachable.ctor))
    [1, 0, 0, 0, 0] [2, 1, 1, 1] [9, 9, 9, 9, 9] (by decide) (by decide) (by decide)

/-- C3, what the code does instead: for every composite a program can hold and all
`q0`, `q1` of length `C.nq()`, `squaredDistance_impl` runs its loop to the end, the
local `d2` then holds the entries' squared distances added up from `0` in entry
order, and no value is returned to the caller. -/
theorem squaredDistance_accumulates_but_returns_nothing [Zero Scalar] [Add Scalar]
    (C : CartesianProductOperationVariantTpl Scalar Gen) (hC : Reachable C)
    (q0 q1 : List Scalar) (h0 : q0.length = C.nq) (h1 : q1.length = C.nq) :
    squaredDistance_impl C q0 q1
      = .ok { d2 := squaredDistanceSum C.liegroups q0 q1 0, returned := none } :=
  squaredDistance_impl_eq hC.consistent (Nat.le_of_eq h0.symm) (Nat.le_of_eq h1.symm)

/-- Instance of C3: on the composite of `planar` and `vectorSpace 3` with
`q0 = [1,0,0,0,0]` and `q1 = [0,1,1,1,1]` the accumulator ends at `1 + 3 = 4` and
nothing is returned. -/
theorem squaredDistance_accumulates_but_returns_nothing_witness :
    squaredDistance_impl (ctor2 planar (vectorSpace 3)) [1, 0, 0, 0, 0] [0, 1, 1, 1, 1]
        = .ok { d2 := 4, returned := none } ∧
      squaredDistance_impl (ctor2 planar (vectorSpace 3)) [1, 0, 0, 0, 0] [0, 1, 1, 1, 1]
        = .ok { d2 := squaredDistanceSum (ctor2 planar (vectorSpace 3)).liegroups
                  [1, 0, 0, 0, 0] [0, 1, 1, 1, 1] 0,
                returned := none } :=
  ⟨rfl, squaredDistance_accumulates_but_returns_nothing (ctor2 planar (vectorSpace 3))
    (Reachable.append _ (Reachable.append _ Reachable.ctor))
    [1, 0, 0, 0, 0] [0, 1, 1, 1, 1] (by decide) (by decide)⟩

/-- C4. For every finite sequence of handles `hs`, the composite obtained from the
default-constructed one by appending them in order has `nq()` equal to the sum of
the handles' `nq` and `nv()` equal to the sum of the handles' `nv`. -/
theorem append_dimensions_are_sums [Zero Scalar] (hs : List (LieGroupGeneric Scalar Gen)) :
    (build hs).nq = (hs.map (fun lg => lg.nq)).sum ∧
    (build hs).nv = (hs.map (fun lg => lg.nv)).sum := by
  have h := consistent_build hs
  have hl := build_liegroups hs
  refine ⟨?_, ?_⟩
  · show (build hs).m_nq = _
    rw [h.nq_sum, h.nqs, hl]
  · show (build hs).m_nv = _
    rw [h.nv_sum, h.nvs, hl]

/-- C5. For all composites `A` and `B` (values a program can hold), `A * B` returns a
composite whose `nq()` is `A.nq() + B.nq()`, whose `nv()` is `A.nv() + B.nv()`, and
whose handles and cached per-entry `nq` and `nv` lists are those of `A` followed by
those of `B`. -/
theorem product_dimensions_and_entries [Zero Scalar]
    (A B : CartesianProductOperationVariantTpl Scalar Gen)
    (hA : Reachable A) (hB : Reachable B) :
    ∃ R, A.product B = some R ∧
      R.nq = A.nq + B.nq ∧ R.nv = A.nv + B.nv ∧
      R.liegroups = A.liegroups ++ B.liegroups ∧
      R.lg_nqs = A.lg_nqs ++ B.lg_nqs ∧
      R.lg_nvs = A.lg_nvs ++ B.lg_nvs :=
  ⟨_, product_eq_some A B hA.consistent.neutral_length hB.consistent.neutral_length,
    rfl, rfl, rfl, rfl, rfl⟩

/-- Instance of C5: the one-entry composite of `planar` times the one-entry composite
of `vectorSpace 3`. -/
theorem product_dimensions_and_entries_witness :
    ∃ R, (ctor1 planar).product (ctor1 (vectorSpace 3)) = some R ∧
      R.nq = (ctor1 planar).nq + (ctor1 (vectorSpace 3)).nq ∧
      R.nv = (ctor1 planar).nv + (ctor1 (vectorSpace 3)).nv ∧
      R.liegroups = (ctor1 planar).liegroups ++ (ctor1 (vectorSpace 3)).liegroups ∧
      R.lg_nqs = (ctor1 planar).lg_nqs ++ (ctor1 (vectorSpace 3)).lg_nqs ∧
      R.lg_nvs = (ctor1 planar).lg_nvs ++ (ctor1 (vectorSpace 3)).lg_nvs :=
  product_dimensions_and_entries (ctor1 planar) (ctor1 (vectorSpace 3))
    (Reachable.append planar Reachable.ctor)
    (Reachable.append (vectorSpace 3) Reachable.ctor)

/-- C6, the input on which the code departs from it: the default-constructed
composite times the one-entry composite of `planar` is named `" x SO(2)"`, not
`"SO(2)"`; the separator is inserted although the left operand has no entry. The
other three cases of C6 hold: both operands non-empty, right operand empty, both
empty. -/
theorem product_name_of_empty_left :
    ((ctor : CartesianProductOperationVariantTpl Int Nat).product (ctor1 planar)).map name
        = some " x SO(2)" ∧
      (ctor1 planar : CartesianProductOperationVariantTpl Int Nat).name = "SO(2)" ∧
      ((ctor1 planar).product (ctor1 (vectorSpace 3))).map name = some "SO(2) x R^3" ∧
      ((ctor1 planar).product (ctor : CartesianProductOperationVariantTpl Int Nat)).map name
        = some "SO(2)" ∧
      ((ctor : CartesianProductOperationVariantTpl Int Nat).product ctor).map name
        = some "" := by
  refine ⟨?_, ?_, ?_, ?_, ?_⟩ <;> decide

/-- C7. For every composite built from the default-constructed one by a sequence of
`append` calls, and for every product of two such composites, `neutral()` has
length `nq()` and is the concatenation, in entry order, of the handles' neutral
configurations. (That a handle's neutral element has `nq()` coefficients is part
of the type `LieGroupGeneric`.) -/
theorem neutral_is_concatenation [Zero Scalar] :
    (∀ hs : List (LieGroupGeneric Scalar Gen),
      (build hs).neutral.length = (build hs).nq ∧
      (build hs).liegroups = hs ∧
      (build hs).neutral = (hs.map (fun lg => lg.neutral)).flatten) ∧
    (∀ hs1 hs2 : List (LieGroupGeneric Scalar Gen),
      ∃ R, (build hs1).product (build hs2) = some R ∧
        R.neutral.length = R.nq ∧
        R.liegroups = hs1 ++ hs2 ∧
        R.neutral = ((hs1 ++ hs2).map (fun lg => lg.neutral)).flatten) := by
  constructor
  · intro hs
    have h := consistent_build hs
    refine ⟨h.neutral_length, build_liegroups hs, ?_⟩
    show (build hs).m_neutral = _
    rw [h.neutral_eq, build_liegroups]
  · intro hs1 hs2
    have h1 := consistent_build hs1
    have h2 := consistent_build hs2
    have hp := product_eq_some (build hs1) (build hs2) h1.neutral_length h2.neutral_length
    have hR := Consistent.product h1 h2 hp
    refine ⟨_, hp, hR.neutral_length, ?_, ?_⟩
    · show (build hs1).liegroups ++ (build hs2).liegroups = _
      rw [build_liegroups, build_liegroups]
    · show (build hs1).m_neutral ++ (build hs2).m_neutral = _
      rw [h1.neutral_eq, h2.neutral_eq, build_liegroups, build_liegroups]
      simp

/-- C8. For every finite sequence of handles, the composite obtained from the
default-constructed one by appending them in order is named by the handles' names
joined with `" x "`: the empty string for no handle, the handle's name for one
handle, `name(h1) ++ " x " ++ name(h2)` for two, and so on. -/
theorem name_is_joined_names [Zero Scalar] :
    (∀ hs : List (LieGroupGeneric Scalar Gen),
      (build hs).name = String.intercalate " x " (hs.map (fun lg => lg.name))) ∧
    (build ([] : List (LieGroupGeneric Scalar Gen))).name = "" ∧
    (∀ h : LieGroupGeneric Scalar Gen, (build [h]).name = h.name) ∧
    (∀ (hs : List (LieGroupGeneric Scalar Gen)) (h k : LieGroupGeneric Scalar Gen),
      (build (h :: hs ++ [k])).name = ((build (h :: hs)).name ++ " x ") ++ k.name) := by
  refine ⟨build_m_name, rfl, ?_, ?_⟩
  · intro h
    show (build [h]).m_name = _
    rw [build_m_name]
    rfl
  · intro hs h k
    show (build ((h :: hs) ++ [k])).m_name = _
    rw [build_snoc, append_m_name, if_pos (by rw [build_liegroups]; simp)]
    rfl

/-- C9 fails on the code. With `nq() = nv() = 1` and `q0`, `q1` of length 2,
`difference_impl` completes and writes the output block: a length mismatch is not
rejected. With `nq() = 2` and `q0`, `q1` of length 1 nothing stops the call before
the second entry, where the block falls out of range (Eigen's range assertion, in
a build that has it); the first entry's block of `d` has been written by then. -/
theorem dimension_mismatch_not_rejected :
    (ctor1 (vectorSpace 1) : CartesianProductOperationVariantTpl Int Nat).nq = 1 ∧
    difference_impl (ctor1 (vectorSpace 1)) [1, 7] [5, 7] [0] = .ok [4] ∧
    (ctor2 (vectorSpace 1) (vectorSpace 1) : CartesianProductOperationVariantTpl Int Nat).nq
      = 2 ∧
    difference_impl (ctor2 (vectorSpace 1) (vectorSpace 1)) [1] [5] [0, 0] = .error [4, 0] ∧
    ¬ (∀ (C : CartesianProductOperationVariantTpl Int Nat) (q0 q1 d : List Int),
        Reachable C →
        (q0.length ≠ C.nq ∨ q1.length ≠ C.nq ∨ d.length ≠ C.nv) →
        difference_impl C q0 q1 d = .error d) := by
  refine ⟨rfl, rfl, rfl, rfl, ?_⟩
  intro h
  have := h (ctor1 (vectorSpace 1)) [1, 7] [5, 7] [0]
    (Reachable.append _ Reachable.ctor) (Or.inl (by decide))
  cases this

/-- C9 as amended. No whole-vector length check is made. On every composite a
program can hold, whenever every vector argument has at least `nq()` coefficients
(configuration role) or `nv()` coefficients (tangent role), longer ones included,
each of the five dispatch loops runs through all entries; only the leading `nq()`
or `nv()` coefficients of each argument are used: the result is the one obtained
from the arguments cut to that length, followed by the untouched coefficients of
the output beyond it. For `squaredDistance` this is said of the accumulator of
its loop. Nothing is said about an argument shorter than required. -/
theorem arguments_long_enough_are_accepted [Zero Scalar] [Add Scalar]
    (C : CartesianProductOperationVariantTpl Scalar Gen) (hC : Reachable C) (g : Gen)
    (q0 q1 qout v d : List Scalar)
    (hq0 : C.nq ≤ q0.length) (hq1 : C.nq ≤ q1.length) (hqout : C.nq ≤ qout.length)
    (hv : C.nv ≤ v.length) (hd : C.nv ≤ d.length) :
    (∃ r, difference_impl C (q0.take C.nq) (q1.take C.nq) (d.take C.nv) = .ok r ∧
      r.length = C.nv ∧
      difference_impl C q0 q1 d = .ok (r ++ d.drop C.nv)) ∧
    (∃ r, integrate_impl C (q0.take C.nq) (v.take C.nv) (qout.take C.nq) = .ok r ∧
      r.length = C.nq ∧
      integrate_impl C q0 v qout = .ok (r ++ qout.drop C.nq)) ∧
    (∃ acc,
      squaredDistance_loop (q0.take C.nq) (q1.take C.nq) C.liegroups C.lg_nqs 0 0
        = .ok acc ∧
      squaredDistance_loop q0 q1 C.liegroups C.lg_nqs 0 0 = .ok acc) ∧
    (∃ r g1, random_impl C g (qout.take C.nq) = .ok (r, g1) ∧
      r.length = C.nq ∧
      random_impl C g qout = .ok (r ++ qout.drop C.nq, g1)) ∧
    (∃ r g1,
      randomConfiguration_impl C g (q0.take C.nq) (q1.take C.nq) (qout.take C.nq)
        = .ok (r, g1) ∧
      r.length = C.nq ∧
      randomConfiguration_impl C g q0 q1 qout = .ok (r ++ qout.drop C.nq, g1)) :=
  ⟨difference_impl_leading hC.consistent hq0 hq1 hd,
    integrate_impl_leading hC.consistent hq0 hv hqout,
    squaredDistance_loop_leading hC.consistent hq0 hq1 0,
    random_impl_leading hC.consistent g hqout,
    randomConfiguration_impl_leading hC.consistent g hq0 hq1 hqout⟩

/-- Instance of the amended C9: the one-entry composite of `vectorSpace 1`
(`nq() = nv() = 1`) with arguments of length 2. -/
theorem arguments_long_enough_are_accepted_witness :
    (∃ r, difference_impl (ctor1 (vectorSpace 1))
        (([1, 7] : List Int).take (ctor1 (vectorSpace 1)).nq)
        (([5, 7] : List Int).take (ctor1 (vectorSpace 1)).nq)
        (([0, 6] : List Int).take (ctor1 (vectorSpace 1)).nv) = .ok r ∧
      r.length = (ctor1 (vectorSpace 1)).nv ∧
      difference_impl (ctor1 (vectorSpace 1)) [1, 7] [5, 7] [0, 6]
        = .ok (r ++ ([0, 6] : List Int).drop (ctor1 (vectorSpace 1)).nv)) ∧
    (∃ r, integrate_impl (ctor1 (vectorSpace 1))
        (([1, 7] : List Int).take (ctor1 (vectorSpace 1)).nq)
        (([2, 8] : List Int).take (ctor1 (vectorSpace 1)).nv)
        (([0, 3] : List Int).take (ctor1 (vectorSpace 1)).nq) = .ok r ∧
      r.length = (ctor1 (vectorSpace 1)).nq ∧
      integrate_impl (ctor1 (vectorSpace 1)) [1, 7] [2, 8] [0, 3]
        = .ok (r ++ ([0, 3] : List Int).drop (ctor1 (vectorSpace 1)).nq)) ∧
    (∃ acc,
      squaredDistance_loop (([1, 7] : List Int).take (ctor1 (vectorSpace 1)).nq)
        (([5, 7] : List Int).take (ctor1 (vectorSpace 1)).nq)
        (ctor1 (vectorSpace 1)).liegroups (ctor1 (vectorSpace 1)).lg_nqs 0 0 = .ok acc ∧
      squaredDistance_loop [1, 7] [5, 7]
        (ctor1 (vectorSpace 1)).liegroups (ctor1 (vectorSpace 1)).lg_nqs 0 0 = .ok acc) ∧
    (∃ r g1, random_impl (ctor1 (vectorSpace 1)) 0
        (([0, 3] : List Int).take (ctor1 (vectorSpace 1)).nq) = .ok (r, g1) ∧
      r.length = (ctor1 (vectorSpace 1)).nq ∧
      random_impl (ctor1 (vectorSpace 1)) 0 [0, 3]
        = .ok (r ++ ([0, 3] : List Int).drop (ctor1 (vectorSpace 1)).nq, g1)) ∧
    (∃ r g1,
      randomConfiguration_impl (ctor1 (vectorSpace 1)) 0
        (([1, 7] : List Int).take (ctor1 (vectorSpace 1)).nq)
        (([5, 7] : List Int).take (ctor1 (vectorSpace 1)).nq)
        (([0, 3] : List Int).take (ctor1 (vectorSpace 1)).nq) = .ok (r, g1) ∧
      r.length = (ctor1 (vectorSpace 1)).nq ∧
      randomConfiguration_impl (ctor1 (vectorSpace 1)) 0 [1, 7] [5, 7] [0, 3]
        = .ok (r ++ ([0, 3] : List Int).drop (ctor1 (vectorSpace 1)).nq, g1)) :=
  arguments_long_enough_are_accepted (ctor1 (vectorSpace 1))
    (Reachable.append _ Reachable.ctor) 0 [1, 7] [5, 7] [0, 3] [2, 8] [0, 6]
    (by decide) (by decide) (by decide) (by decide) (by decide)

/-- C10. Assume every handle of the composite satisfies
`integrate(a, difference(a, b)) = b` on vectors of its own size. Then for every
composite `C` a program can hold (those built by `append` among them) and all `q0`,
`q1` of length `C.nq()`: `difference_impl` completes with some `v`, and
`integrate_impl` on `q0` and `v` completes with exactly `q1`. -/
theorem integrate_difference_gives_back [Zero Scalar]
    (C : CartesianProductOperationVariantTpl Scalar Gen) (hC : Reachable C)
    (hlaw : ∀ lg ∈ C.liegroups, ∀ a b : List Scalar, a.length = lg.nq → b.length = lg.nq →
      lg.integrate a (lg.difference a b) = b)
    (q0 q1 d qout : List Scalar) (h0 : q0.length = C.nq) (h1 : q1.length = C.nq)
    (hd : d.length = C.nv) (ho : qout.length = C.nq) :
    ∃ v, difference_impl C q0 q1 d = .ok v ∧ v.length = C.nv ∧
      integrate_impl C q0 v qout = .ok q1 := by
  have hc := hC.consistent
  have e0 := hc.nq_sum
  have ev := hc.nv_sum
  rw [hc.nqs] at e0
  rw [hc.nvs] at ev
  have h0' : q0.length = C.m_nq := h0
  have h1' : q1.length = C.m_nq := h1
  have hd' : d.length = C.m_nv := hd
  have ho' : qout.length = C.m_nq := ho
  have hv : (differenceBlocks C.liegroups q0 q1).length = C.m_nv := by
    rw [differenceBlocks_length _ _ _ (by omega) (by omega), ev]
  refine ⟨differenceBlocks C.liegroups q0 q1, ?_, hv, ?_⟩
  · rw [difference_impl_eq hc (by omega) (by omega) (by omega),
      List.drop_of_length_le (by omega), List.append_nil]
  · rw [integrate_impl_eq hc (by omega) (by omega) (by omega),
      List.drop_of_length_le (by omega), List.append_nil,
      integrateBlocks_differenceBlocks _ _ _ (by omega) (by omega) hlaw]

/-- Instance of C10: the composite built by appending `vectorSpace 1` and
`vectorSpace 2`, whose handles satisfy the law. -/
theorem integrate_difference_gives_back_witness :
    ∃ v, difference_impl (build [vectorSpace 1, vectorSpace 2]) [1, 2, 3] [5, 5, 5]
        [0, 0, 0] = .ok v ∧
      v.length = (build [vectorSpace 1, vectorSpace 2]).nv ∧
      integrate_impl (build [vectorSpace 1, vectorSpace 2]) [1, 2, 3] v [0, 0, 0]
        = .ok [5, 5, 5] :=
  integrate_difference_gives_back (build [vectorSpace 1, vectorSpace 2])
    (Reachable.append _ (Reachable.append _ Reachable.ctor))
    (by
      intro lg hlg
      have hmem : lg ∈ [vectorSpace 1, vectorSpace 2] := hlg
      simp only [List.mem_cons, List.mem_singleton, List.not_mem_nil, or_false] at hmem
      rcases hmem with h | h
      · subst h; exact vectorSpace_integrate_difference 1
      · subst h; exact vectorSpace_integrate_difference 2)
    [1, 2, 3] [5, 5, 5] [0, 0, 0] [0, 0, 0] (by decide) (by decide) (by decide) (by decide)

/-- C11. Assume every handle of the composite satisfies `difference(a, a) = 0` on
vectors of its own size. Then for every composite `C` a program can hold (those
built by `append` among them), every `q` of length `C.nq()` and every output vector
`d` of length `C.nv()`, whatever it held before: `difference_impl` completes and
the output is the zero vector of length `C.nv()`. -/
theorem difference_self_is_zero [Zero Scalar]
    (C : CartesianProductOperationVariantTpl Scalar Gen) (hC : Reachable C)
    (hlaw : ∀ lg ∈ C.liegroups, ∀ a : List Scalar, a.length = lg.nq →
      lg.difference a a = List.replicate lg.nv 0)
    (q d : List Scalar) (hq : q.length = C.nq) (hd : d.length = C.nv) :
    difference_impl C q q d = .ok (List.replicate C.nv 0) := by
  have hc := hC.consistent
  have e0 := hc.nq_sum
  have ev := hc.nv_sum
  rw [hc.nqs] at e0
  rw [hc.nvs] at ev
  have hq' : q.length = C.m_nq := hq
  have hd' : d.length = C.m_nv := hd
  rw [difference_impl_eq hc (by omega) (by omega) (by omega),
    List.drop_of_length_le (by omega), List.append_nil,
    differenceBlocks_self _ _ (by omega) hlaw, ← ev]
  rfl

/-- Instance of C11: the composite built by appending `vectorSpace 1` and
`vectorSpace 2`, `q = [1,2,3]`, and an output vector that held `[9,9,9]`. -/
theorem difference_self_is_zero_witness :
    difference_impl (build [vectorSpace 1, vectorSpace 2]) [1, 2, 3] [1, 2, 3] [9, 9, 9]
      = .ok (List.replicate (build [vectorSpace 1, vectorSpace 2]).nv 0) :=
  difference_self_is_zero (build [vectorSpace 1, vectorSpace 2])
    (Reachable.append _ (Reachable.append _ Reachable.ctor))
    (fun lg hlg => by
      rcases mem_build_pair hlg with h | h
      · subst h; exact vectorSpace_difference_self 1
      · subst h; exact vectorSpace_difference_self 2)
    [1, 2, 3] [9, 9, 9] (by decide) (by decide)

/-- C12. Assume every handle of the composite satisfies `integrate(a, 0) = a` on
vectors of its own size. Then for every composite `C` a program can hold (those
built by `append` among them) and every `q` of length `C.nq()`: `integrate_impl` on
`q` and the zero vector of length `C.nv()` completes and the output is `q`. -/
theorem integrate_zero_is_identity [Zero Scalar]
    (C : CartesianProductOperationVariantTpl Scalar Gen) (hC : Reachable C)
    (hlaw : ∀ lg ∈ C.liegroups, ∀ a : List Scalar, a.length = lg.nq →
      lg.integrate a (List.replicate lg.nv 0) = a)
    (q qout : List Scalar) (hq : q.length = C.nq) (ho : qout.length = C.nq) :
    integrate_impl C q (List.replicate C.nv 0) qout = .ok q := by
  have hc := hC.consistent
  have e0 := hc.nq_sum
  have ev := hc.nv_sum
  rw [hc.nqs] at e0
  rw [hc.nvs] at ev
  have hq' : q.length = C.m_nq := hq
  have ho' : qout.length = C.m_nq := ho
  have hv : C.nv = (C.liegroups.map (fun lg => lg.nv)).sum := ev
  rw [integrate_impl_eq hc (by omega)
      (by rw [List.length_replicate]; exact Nat.le_refl _) (by omega),
    List.drop_of_length_le (by omega), List.append_nil, hv,
    integrateBlocks_zero _ _ (by omega) hlaw]

/-- Instance of C12: the composite built by appending `vectorSpace 1` and
`vectorSpace 2`, `q = [1,2,3]`. -/
theorem integrate_zero_is_identity_witness :
    integrate_impl (build [vectorSpace 1, vectorSpace 2]) [1, 2, 3]
        (List.replicate (build [vectorSpace 1, vectorSpace 2]).nv 0) [9, 9, 9]
      = .ok [1, 2, 3] :=
  integrate_zero_is_identity (build [vectorSpace 1, vectorSpace 2])
    (Reachable.append _ (Reachable.append _ Reachable.ctor))
    (fun lg hlg => by
      rcases mem_build_pair hlg with h | h
      · subst h; exact vectorSpace_integrate_zero 1
      · subst h; exact vectorSpace_integrate_zero 2)
    [1, 2, 3] [9, 9, 9] (by decide) (by decide)

/-- C13. Assume every handle of the composite, given bounds `lo ≤ hi` of its own
length, samples a configuration whose every coordinate lies between the two. Then
for every composite `C` a program can hold (those built by `append` among them)
and all `lower`, `upper`, `qout` of length `C.nq()` with `lower ≤ upper`
coordinate by coordinate: `randomConfiguration_impl` completes and every
coordinate `i` of the output satisfies `lower[i] ≤ qout[i] ≤ upper[i]`. -/
theorem randomConfiguration_within_bounds [Zero Scalar] [LE Scalar]
    (C : CartesianProductOperationVariantTpl Scalar Gen) (hC : Reachable C)
    (hlaw : ∀ lg ∈ C.liegroups, ∀ (g : Gen) (lo hi : List Scalar), lo.length = lg.nq →
      List.Forall₂ (fun x y => x ≤ y) lo hi →
      List.Forall₂ (fun x y => x ≤ y) lo (lg.randomConfiguration g lo hi).1 ∧
      List.Forall₂ (fun x y => x ≤ y) (lg.randomConfiguration g lo hi).1 hi)
    (g : Gen) (lower upper qout : List Scalar) (hl : lower.length = C.nq)
    (hu : upper.length = C.nq) (ho : qout.length = C.nq)
    (hle : List.Forall₂ (fun x y => x ≤ y) lower upper) :
    ∃ r, randomConfiguration_impl C g lower upper qout = .ok r ∧
      r.1.length = C.nq ∧
      List.Forall₂ (fun x y => x ≤ y) lower r.1 ∧
      List.Forall₂ (fun x y => x ≤ y) r.1 upper ∧
      ∀ (i : Nat) (l x u : Scalar), lower[i]? = some l → r.1[i]? = some x →
        upper[i]? = some u → l ≤ x ∧ x ≤ u := by
  have hc := hC.consistent
  have e0 := hc.nq_sum
  rw [hc.nqs] at e0
  have hl' : lower.length = C.m_nq := hl
  have hu' : upper.length = C.m_nq := hu
  have ho' : qout.length = C.m_nq := ho
  have hw := randomConfigurationBlocks_within C.liegroups lower upper g (by omega) hle hlaw
  refine ⟨_, randomConfiguration_impl_eq hc g (by omega) (by omega) (by omega), ?_, ?_, ?_, ?_⟩
  · rw [List.drop_of_length_le (by omega), List.append_nil]
    exact hw.1.length_eq.symm.trans hl
  · rw [List.drop_of_length_le (by omega), List.append_nil]
    exact hw.1
  · rw [List.drop_of_length_le (by omega), List.append_nil]
    exact hw.2
  · intro i l x u h1 h2 h3
    rw [List.drop_of_length_le (by omega), List.append_nil] at h2
    exact ⟨forall₂_getElem? hw.1 i l x h1 h2, forall₂_getElem? hw.2 i x u h2 h3⟩

/-- Instance of C13: the composite built by appending `vectorSpace 1` and
`vectorSpace 2`, bounds `[0,0,0] ≤ [1,2,3]`, generator state `0`. -/
theorem randomConfiguration_within_bounds_witness :
    ∃ r, randomConfiguration_impl (build [vectorSpace 1, vectorSpace 2]) 0 [0, 0, 0]
        [1, 2, 3] [9, 9, 9] = .ok r ∧
      r.1.length = (build [vectorSpace 1, vectorSpace 2]).nq ∧
      List.Forall₂ (fun x y => x ≤ y) [0, 0, 0] r.1 ∧
      List.Forall₂ (fun x y => x ≤ y) r.1 [1, 2, 3] ∧
      ∀ (i : Nat) (l x u : Int), ([0, 0, 0] : List Int)[i]? = some l → r.1[i]? = some x →
        ([1, 2, 3] : List Int)[i]? = some u → l ≤ x ∧ x ≤ u :=
  randomConfiguration_within_bounds (build [vectorSpace 1, vectorSpace 2])
    (Reachable.append _ (Reachable.append _ Reachable.ctor))
    (fun lg hlg => by
      rcases mem_build_pair hlg with h | h
      · subst h; exact vectorSpace_randomConfiguration_within 1
      · subst h; exact vectorSpace_randomConfiguration_within 2)
    0 [0, 0, 0] [1, 2, 3] [9, 9, 9] (by decide) (by decide) (by decide)
    (by simp)

/-- C14. For all composites `A` and `B` a program can hold (those built by `append`
among them) and all vectors of the factors' sizes: `A * B` returns a composite on
which `difference_impl` of the concatenated configurations is the concatenation of
`A`'s and `B`'s differences, and `integrate_impl` of the concatenated configuration
and tangent vectors is the concatenation of `A`'s and `B`'s results. -/
theorem product_operations_act_per_factor [Zero Scalar]
    (A B : CartesianProductOperationVariantTpl Scalar Gen)
    (hA : Reachable A) (hB : Reachable B)
    (qA0 qA1 qB0 qB1 vA vB dA dB d oA oB o : List Scalar)
    (hqA0 : qA0.length = A.nq) (hqA1 : qA1.length = A.nq)
    (hqB0 : qB0.length = B.nq) (hqB1 : qB1.length = B.nq)
    (hvA : vA.length = A.nv) (hvB : vB.length = B.nv)
    (hdA : dA.length = A.nv) (hdB : dB.length = B.nv) (hd : d.length = A.nv + B.nv)
    (hoA : oA.length = A.nq) (hoB : oB.length = B.nq) (ho : o.length = A.nq + B.nq) :
    ∃ R rA rB sA sB,
      A.product B = some R ∧
      difference_impl A qA0 qA1 dA = .ok rA ∧
      difference_impl B qB0 qB1 dB = .ok rB ∧
      difference_impl R (qA0 ++ qB0) (qA1 ++ qB1) d = .ok (rA ++ rB) ∧
      integrate_impl A qA0 vA oA = .ok sA ∧
      integrate_impl B qB0 vB oB = .ok sB ∧
      integrate_impl R (qA0 ++ qB0) (vA ++ vB) o = .ok (sA ++ sB) := by
  have cA := hA.consistent
  have cB := hB.consistent
  have hp := product_eq_some A B cA.neutral_length cB.neutral_length
  have cR := Consistent.product cA cB hp
  have eA0 := cA.nq_sum
  have eAv := cA.nv_sum
  rw [cA.nqs] at eA0
  rw [cA.nvs] at eAv
  have hqA0' : qA0.length = A.m_nq := hqA0
  have hqA1' : qA1.length = A.m_nq := hqA1
  have hqB0' : qB0.length = B.m_nq := hqB0
  have hqB1' : qB1.length = B.m_nq := hqB1
  have hvA' : vA.length = A.m_nv := hvA
  have hvB' : vB.length = B.m_nv := hvB
  have hdA' : dA.length = A.m_nv := hdA
  have hdB' : dB.length = B.m_nv := hdB
  have hd' : d.length = A.m_nv + B.m_nv := hd
  have hoA' : oA.length = A.m_nq := hoA
  have hoB' : oB.length = B.m_nq := hoB
  have ho' : o.length = A.m_nq + B.m_nq := ho
  refine ⟨_, differenceBlocks A.liegroups qA0 qA1, differenceBlocks B.liegroups qB0 qB1,
    integrateBlocks A.liegroups qA0 vA, integrateBlocks B.liegroups qB0 vB, hp, ?_, ?_, ?_,
    ?_, ?_, ?_⟩
  · rw [difference_impl_eq cA (by omega) (by omega) (by omega),
      List.drop_of_length_le (by omega), List.append_nil]
  · rw [difference_impl_eq cB (by omega) (by omega) (by omega),
      List.drop_of_length_le (by omega), List.append_nil]
  · rw [difference_impl_eq cR (by simp only [List.length_append]; omega)
      (by simp only [List.length_append]; omega) (by simp only; omega),
      List.drop_of_length_le (by simp only; omega), List.append_nil]
    exact congrArg Except.ok
      (differenceBlocks_append A.liegroups B.liegroups qA0 qA1 qB0 qB1 (by omega) (by omega))
  · rw [integrate_impl_eq cA (by omega) (by omega) (by omega),
      List.drop_of_length_le (by omega), List.append_nil]
  · rw [integrate_impl_eq cB (by omega) (by omega) (by omega),
      List.drop_of_length_le (by omega), List.append_nil]
  · rw [integrate_impl_eq cR (by simp only [List.length_append]; omega)
      (by simp only [List.length_append]; omega) (by simp only; omega),
      List.drop_of_length_le (by simp only; omega), List.append_nil]
    exact congrArg Except.ok
      (integrateBlocks_append A.liegroups B.liegroups qA0 vA qB0 vB (by omega) (by omega))

/-- Instance of C14: `A` the one-entry composite of `planar`, `B` the one-entry
composite of `vectorSpace 3`. -/
theorem product_operations_act_per_factor_witness :
    ∃ R rA rB sA sB,
      (ctor1 planar).product (ctor1 (vectorSpace 3)) = some R ∧
      difference_impl (ctor1 planar) [1, 0] [0, 1] [9] = .ok rA ∧
      difference_impl (ctor1 (vectorSpace 3)) [0, 0, 0] [1, 1, 1] [9, 9, 9] = .ok rB ∧
      difference_impl R ([1, 0] ++ [0, 0, 0]) ([0, 1] ++ [1, 1, 1]) [9, 9, 9, 9]
        = .ok (rA ++ rB) ∧
      integrate_impl (ctor1 planar) [1, 0] [2] [9, 9] = .ok sA ∧
      integrate_impl (ctor1 (vectorSpace 3)) [0, 0, 0] [1, 1, 1] [9, 9, 9] = .ok sB ∧
      integrate_impl R ([1, 0] ++ [0, 0, 0]) ([2] ++ [1, 1, 1]) [9, 9, 9, 9, 9]
        = .ok (sA ++ sB) :=
  product_operations_act_per_factor (ctor1 planar) (ctor1 (vectorSpace 3))
    (Reachable.append _ Reachable.ctor) (Reachable.append _ Reachable.ctor)
    [1, 0] [0, 1] [0, 0, 0] [1, 1, 1] [2] [1, 1, 1] [9] [9, 9, 9] [9, 9, 9, 9]
    [9, 9] [9, 9, 9] [9, 9, 9, 9, 9]
    (by decide) (by decide) (by decide) (by decide) (by decide) (by decide)
    (by decide) (by decide) (by decide) (by decide) (by decide) (by decide)

/-- C15. For all composites `A`, `B`, `C` a program can hold, `(A * B) * C` and
`A * (B * C)` are both returned and have the same handles, the same cached
per-entry `nq` and `nv` lists, the same `nq()` and `nv()`, and the same
`neutral()`. -/
theorem product_is_associative_on_entries [Zero Scalar]
    (A B C : CartesianProductOperationVariantTpl Scalar Gen)
    (hA : Reachable A) (hB : Reachable B) (hC : Reachable C) :
    ∃ AB BC L R,
      A.product B = some AB ∧ AB.product C = some L ∧
      B.product C = some BC ∧ A.product BC = some R ∧
      L.liegroups = R.liegroups ∧ L.lg_nqs = R.lg_nqs ∧ L.lg_nvs = R.lg_nvs ∧
      L.nq = R.nq ∧ L.nv = R.nv ∧ L.neutral = R.neutral := by
  have cA := hA.consistent
  have cB := hB.consistent
  have cC := hC.consistent
  have hAB := product_eq_some A B cA.neutral_length cB.neutral_length
  have hBC := product_eq_some B C cB.neutral_length cC.neutral_length
  have cAB := Consistent.product cA cB hAB
  have cBC := Consistent.product cB cC hBC
  refine ⟨_, _, _, _, hAB, product_eq_some _ C cAB.neutral_length cC.neutral_length, hBC,
    product_eq_some A _ cA.neutral_length cBC.neutral_length, ?_, ?_, ?_, ?_, ?_, ?_⟩
  · exact List.append_assoc _ _ _
  · exact List.append_assoc _ _ _
  · exact List.append_assoc _ _ _
  · exact Nat.add_assoc _ _ _
  · exact Nat.add_assoc _ _ _
  · exact List.append_assoc _ _ _

/-- Instance of C15: the one-entry composites of `planar`, `vectorSpace 1` and
`vectorSpace 3`. -/
theorem product_is_associative_on_entries_witness :
    ∃ AB BC L R,
      (ctor1 planar).product (ctor1 (vectorSpace 1)) = some AB ∧
      AB.product (ctor1 (vectorSpace 3)) = some L ∧
      (ctor1 (vectorSpace 1)).product (ctor1 (vectorSpace 3)) = some BC ∧
      (ctor1 planar).product BC = some R ∧
      L.liegroups = R.liegroups ∧ L.lg_nqs = R.lg_nqs ∧ L.lg_nvs = R.lg_nvs ∧
      L.nq = R.nq ∧ L.nv = R.nv ∧ L.neutral = R.neutral :=
  product_is_associative_on_entries (ctor1 planar) (ctor1 (vectorSpace 1))
    (ctor1 (vectorSpace 3)) (Reachable.append _ Reachable.ctor)
    (Reachable.append _ Reachable.ctor) (Reachable.append _ Reachable.ctor)

/-- C16. Concrete scenario: let `R` be a handle with `nq = 2`, `nv = 1` and `V` a
handle with `nq = 3`, `nv = 3` whose `difference(a, b)` is `b - a`. The composite
constructed from `R` and `V` has `nq() = 5` and `nv() = 4`, and `difference_impl` of
`[1,0,0,0,0]` and `[0,1,1,1,1]` completes with the 4-vector made of the one
coefficient of `R.difference [1,0] [0,1]` followed by exactly `[1,1,1]`. -/
theorem scenario_rotation_then_flat_vector [Ring Scalar]
    (R V : LieGroupGeneric Scalar Gen) (hRq : R.nq = 2) (hRv : R.nv = 1)
    (hVq : V.nq = 3) (hVv : V.nv = 3)
    (hV : ∀ a b : List Scalar, V.difference a b = List.zipWith (fun x y => y - x) a b)
    (d : List Scalar) (hd : d.length = 4) :
    (ctor2 R V).nq = 5 ∧ (ctor2 R V).nv = 4 ∧
    (R.difference [1, 0] [0, 1]).length = 1 ∧
    difference_impl (ctor2 R V) [1, 0, 0, 0, 0] [0, 1, 1, 1, 1] d
      = .ok (R.difference [1, 0] [0, 1] ++ [1, 1, 1]) := by
  have hc : Consistent (ctor2 R V) := (consistent_ctor.append R).append V
  have hnq : (ctor2 R V).m_nq = 5 := by
    show 0 + R.nq + V.nq = 5
    omega
  have hnv : (ctor2 R V).m_nv = 4 := by
    show 0 + R.nv + V.nv = 4
    omega
  refine ⟨hnq, hnv, ?_, ?_⟩
  · rw [R.difference_size _ _ (by rw [hRq]; rfl) (by rw [hRq]; rfl), hRv]
  · rw [difference_impl_eq hc (by rw [hnq]; rfl) (by rw [hnq]; rfl) (by omega),
      List.drop_of_length_le (by omega), List.append_nil]
    show Except.ok (differenceBlocks [R, V] _ _) = _
    simp [differenceBlocks, hRq, hVq, hV]

/-- Instance of C16: `R = planar`, `V = vectorSpace 3`, with integer coefficients. -/
theorem scenario_rotation_then_flat_vector_witness :
    (ctor2 planar (vectorSpace 3)).nq = 5 ∧ (ctor2 planar (vectorSpace 3)).nv = 4 ∧
    (planar.difference [1, 0] [0, 1]).length = 1 ∧
    difference_impl (ctor2 planar (vectorSpace 3)) [1, 0, 0, 0, 0] [0, 1, 1, 1, 1]
        [9, 9, 9, 9]
      = .ok (planar.difference [1, 0] [0, 1] ++ [1, 1, 1]) :=
  scenario_rotation_then_flat_vector planar (vectorSpace 3) rfl rfl rfl rfl
    (fun _ _ => rfl) [9, 9, 9, 9] rfl

/-- C17. The default-constructed composite has no entries, `nq() = 0`, `nv() = 0`,
the empty name and the empty neutral vector. On it `difference_impl`,
`integrate_impl`, `random_impl` and `randomConfiguration_impl` complete and leave the
output vector as it was (the sampling operations leave the generator as it was,
too): with no entry, no handle operation is invoked. This holds for zero-length
vectors in particular. -/
theorem default_composite_operations_are_noops :
    (ctor : CartesianProductOperationVariantTpl Scalar Gen).liegroups = [] ∧
    (ctor : CartesianProductOperationVariantTpl Scalar Gen).nq = 0 ∧
    (ctor : CartesianProductOperationVariantTpl Scalar Gen).nv = 0 ∧
    (ctor : CartesianProductOperationVariantTpl Scalar Gen).name = "" ∧
    (ctor : CartesianProductOperationVariantTpl Scalar Gen).neutral = [] ∧
    difference_impl (ctor : CartesianProductOperationVariantTpl Scalar Gen) [] [] []
      = .ok [] ∧
    integrate_impl (ctor : CartesianProductOperationVariantTpl Scalar Gen) [] [] []
      = .ok [] ∧
    (∀ g : Gen,
      random_impl (ctor : CartesianProductOperationVariantTpl Scalar Gen) g []
        = .ok ([], g)) ∧
    (∀ g : Gen,
      randomConfiguration_impl (ctor : CartesianProductOperationVariantTpl Scalar Gen)
        g [] [] [] = .ok ([], g)) ∧
    (∀ q0 q1 d : List Scalar,
      difference_impl (ctor : CartesianProductOperationVariantTpl Scalar Gen) q0 q1 d
        = .ok d) ∧
    (∀ q v qout : List Scalar,
      integrate_impl (ctor : CartesianProductOperationVariantTpl Scalar Gen) q v qout
        = .ok qout) ∧
    (∀ (g : Gen) (qout : List Scalar),
      random_impl (ctor : CartesianProductOperationVariantTpl Scalar Gen) g qout
        = .ok (qout, g)) ∧
    (∀ (g : Gen) (lower upper qout : List Scalar),
      randomConfiguration_impl (ctor : CartesianProductOperationVariantTpl Scalar Gen)
        g lower upper qout = .ok (qout, g)) :=
  ⟨rfl, rfl, rfl, rfl, rfl, rfl, rfl, fun _ => rfl, fun _ => rfl,
    fun _ _ _ => rfl, fun _ _ _ => rfl, fun _ _ => rfl, fun _ _ _ _ => rfl⟩

/-- C18. Cache consistency: for every composite `C` reachable from the
default-constructed one by `append` and `operator*`, the lists `liegroups`, `lg_nqs`
and `lg_nvs` have the same length and, at every index `k`, `lg_nqs[k]` and
`lg_nvs[k]` are the `nq` and `nv` of `liegroups[k]`; and `append` adds one entry at
the end and leaves every entry that was there (handle, `nq`, `nv`) as it was. -/
theorem cached_dimensions_are_consistent [Zero Scalar]
    (C : CartesianProductOperationVariantTpl Scalar Gen) (hC : Reachable C)
    (lg : LieGroupGeneric Scalar Gen) :
    C.lg_nqs.length = C.liegroups.length ∧
    C.lg_nvs.length = C.liegroups.length ∧
    (∀ (k : Nat) (h : LieGroupGeneric Scalar Gen), C.liegroups[k]? = some h →
      C.lg_nqs[k]? = some h.nq ∧ C.lg_nvs[k]? = some h.nv) ∧
    (C.append lg).liegroups = C.liegroups ++ [lg] ∧
    (C.append lg).lg_nqs = C.lg_nqs ++ [lg.nq] ∧
    (C.append lg).lg_nvs = C.lg_nvs ++ [lg.nv] ∧
    (∀ (k : Nat) (h : LieGroupGeneric Scalar Gen), C.liegroups[k]? = some h →
      (C.append lg).liegroups[k]? = some h ∧
      (C.append lg).lg_nqs[k]? = some h.nq ∧
      (C.append lg).lg_nvs[k]? = some h.nv) := by
  have hc := hC.consistent
  refine ⟨by rw [hc.nqs, List.length_map], by rw [hc.nvs, List.length_map],
    fun k h hk => hc.cached hk, rfl, rfl, rfl, ?_⟩
  intro k h hk
  have hlt : k < C.liegroups.length := by
    rcases Nat.lt_or_ge k C.liegroups.length with hlt | hge
    · exact hlt
    · rw [List.getElem?_eq_none hge] at hk
      cases hk
  obtain ⟨h1, h2⟩ := hc.cached hk
  refine ⟨?_, ?_, ?_⟩
  · rw [append_liegroups, List.getElem?_append_left hlt, hk]
  · rw [append_lg_nqs, List.getElem?_append_left (by rw [hc.nqs, List.length_map]; exact hlt),
      h1]
  · rw [append_lg_nvs, List.getElem?_append_left (by rw [hc.nvs, List.length_map]; exact hlt),
      h2]

/-- Instance of C18: the composite constructed from `planar` and `vectorSpace 3`,
to which `vectorSpace 1` is appended. -/
theorem cached_dimensions_are_consistent_witness :
    (ctor2 planar (vectorSpace 3)).lg_nqs.length
      = (ctor2 planar (vectorSpace 3)).liegroups.length ∧
    (ctor2 planar (vectorSpace 3)).lg_nvs.length
      = (ctor2 planar (vectorSpace 3)).liegroups.length ∧
    (∀ (k : Nat) (h : LieGroupGeneric Int Nat),
      (ctor2 planar (vectorSpace 3)).liegroups[k]? = some h →
      (ctor2 planar (vectorSpace 3)).lg_nqs[k]? = some h.nq ∧
      (ctor2 planar (vectorSpace 3)).lg_nvs[k]? = some h.nv) ∧
    ((ctor2 planar (vectorSpace 3)).append (vectorSpace 1)).liegroups
      = (ctor2 planar (vectorSpace 3)).liegroups ++ [vectorSpace 1] ∧
    ((ctor2 planar (vectorSpace 3)).append (vectorSpace 1)).lg_nqs
      = (ctor2 planar (vectorSpace 3)).lg_nqs ++ [(vectorSpace 1).nq] ∧
    ((ctor2 planar (vectorSpace 3)).append (vectorSpace 1)).lg_nvs
      = (ctor2 planar (vectorSpace 3)).lg_nvs ++ [(vectorSpace 1).nv] ∧
    (∀ (k : Nat) (h : LieGroupGeneric Int Nat),
      (ctor2 planar (vectorSpace 3)).liegroups[k]? = some h →
      ((ctor2 planar (vectorSpace 3)).append (vectorSpace 1)).liegroups[k]? = some h ∧
      ((ctor2 planar (vectorSpace 3)).append (vectorSpace 1)).lg_nqs[k]? = some h.nq ∧
      ((ctor2 planar (vectorSpace 3)).append (vectorSpace 1)).lg_nvs[k]? = some h.nv) :=
  cached_dimensions_are_consistent (ctor2 planar (vectorSpace 3))
    (Reachable.append _ (Reachable.append _ Reachable.ctor)) (vectorSpace 1)

/-- C19. Slice safety and exact tiling. For every composite `C` reachable by `append`
and `operator*` (handles report natural-number dimensions), with configuration
vectors of length `C.nq()` and tangent vectors of length `C.nv()`:
the running offsets start at `0` and advance by the entry's `nq` and `nv`; every
entry's blocks lie within bounds (`id_q + nq_k ≤ C.nq()`, `id_v + nv_k ≤ C.nv()`);
the blocks of an earlier entry end before those of a later entry begin; after the
last entry the offsets are exactly `C.nq()` and `C.nv()`; in each of the five
dispatch loops the iteration for entry `k` takes its blocks at these offsets and
succeeds; and each of the five operations completes. -/
theorem dispatch_slices_in_range_and_tiling [Zero Scalar] [Add Scalar]
    (C : CartesianProductOperationVariantTpl Scalar Gen) (hC : Reachable C) (g : Gen)
    (q0 q1 qout v d : List Scalar)
    (hq0 : q0.length = C.nq) (hq1 : q1.length = C.nq) (hqout : qout.length = C.nq)
    (hv : v.length = C.nv) (hd : d.length = C.nv) :
    (offset_q C 0 = 0 ∧ offset_v C 0 = 0) ∧
    (∀ (k : Nat) (lg : LieGroupGeneric Scalar Gen), C.liegroups[k]? = some lg →
      offset_q C (k + 1) = offset_q C k + lg.nq ∧
      offset_v C (k + 1) = offset_v C k + lg.nv) ∧
    (∀ (k : Nat) (lg : LieGroupGeneric Scalar Gen), C.liegroups[k]? = some lg →
      offset_q C k + lg.nq ≤ C.nq ∧ offset_v C k + lg.nv ≤ C.nv) ∧
    (∀ (j k : Nat) (lj : LieGroupGeneric Scalar Gen), j < k → C.liegroups[j]? = some lj →
      offset_q C j + lj.nq ≤ offset_q C k ∧ offset_v C j + lj.nv ≤ offset_v C k) ∧
    (offset_q C C.liegroups.length = C.nq ∧ offset_v C C.liegroups.length = C.nv) ∧
    (∀ (k : Nat) (lg : LieGroupGeneric Scalar Gen), C.liegroups[k]? = some lg →
      (∃ dk dk1,
        difference_loop q0 q1 (C.liegroups.take k) (C.lg_nqs.take k) (C.lg_nvs.take k)
          0 0 d = .ok dk ∧
        difference_step lg lg.nq lg.nv (offset_q C k) (offset_v C k) q0 q1 dk = some dk1 ∧
        difference_loop q0 q1 (C.liegroups.take (k + 1)) (C.lg_nqs.take (k + 1))
          (C.lg_nvs.take (k + 1)) 0 0 d = .ok dk1) ∧
      (∃ ok ok1,
        integrate_loop q0 v (C.liegroups.take k) (C.lg_nqs.take k) (C.lg_nvs.take k)
          0 0 qout = .ok ok ∧
        integrate_step lg lg.nq lg.nv (offset_q C k) (offset_v C k) q0 v ok = some ok1 ∧
        integrate_loop q0 v (C.liegroups.take (k + 1)) (C.lg_nqs.take (k + 1))
          (C.lg_nvs.take (k + 1)) 0 0 qout = .ok ok1) ∧
      (∃ acc a b,
        squaredDistance_loop q0 q1 (C.liegroups.take k) (C.lg_nqs.take k) 0 0 = .ok acc ∧
        segment q0 (offset_q C k) lg.nq = some a ∧
        segment q1 (offset_q C k) lg.nq = some b ∧
        squaredDistance_loop q0 q1 (C.liegroups.take (k + 1)) (C.lg_nqs.take (k + 1)) 0 0
          = .ok (acc + lg.squaredDistance a b)) ∧
      (∃ sk sk1,
        random_loop (C.liegroups.take k) (C.lg_nqs.take k) 0 (qout, g) = .ok sk ∧
        random_step lg lg.nq (offset_q C k) sk = some sk1 ∧
        random_loop (C.liegroups.take (k + 1)) (C.lg_nqs.take (k + 1)) 0 (qout, g)
          = .ok sk1) ∧
      (∃ sk sk1,
        randomConfiguration_loop q0 q1 (C.liegroups.take k) (C.lg_nqs.take k) 0 (qout, g)
          = .ok sk ∧
        randomConfiguration_step lg lg.nq (offset_q C k) q0 q1 sk = some sk1 ∧
        randomConfiguration_loop q0 q1 (C.liegroups.take (k + 1)) (C.lg_nqs.take (k + 1))
          0 (qout, g) = .ok sk1)) ∧
    ((∃ r, difference_impl C q0 q1 d = .ok r) ∧
      (∃ r, integrate_impl C q0 v qout = .ok r) ∧
      (∃ r, squaredDistance_impl C q0 q1 = .ok r) ∧
      (∃ r, random_impl C g qout = .ok r) ∧
      (∃ r, randomConfiguration_impl C g q0 q1 qout = .ok r)) := by
  have hc := hC.consistent
  have hq0' : q0.length = C.m_nq := hq0
  have hq1' : q1.length = C.m_nq := hq1
  have hqout' : qout.length = C.m_nq := hqout
  have hv' : v.length = C.m_nv := hv
  have hd' : d.length = C.m_nv := hd
  have hstep : ∀ (k : Nat) (lg : LieGroupGeneric Scalar Gen), C.liegroups[k]? = some lg →
      offset_q C (k + 1) = offset_q C k + lg.nq ∧
      offset_v C (k + 1) = offset_v C k + lg.nv := by
    intro k lg hk
    obtain ⟨h1, h2⟩ := hc.cached hk
    exact ⟨sum_take_succ_of_getElem? h1, sum_take_succ_of_getElem? h2⟩
  refine ⟨⟨rfl, rfl⟩, hstep, fun k lg hk => ⟨hc.offset_q_le hk, hc.offset_v_le hk⟩, ?_, ?_,
    ?_, ?_⟩
  · intro j k lj hjk hj
    obtain ⟨e1, e2⟩ := hstep j lj hj
    rw [← e1, ← e2]
    exact ⟨sum_take_le_sum_take C.lg_nqs (j + 1) k hjk,
      sum_take_le_sum_take C.lg_nvs (j + 1) k hjk⟩
  · constructor
    · show (C.lg_nqs.take C.liegroups.length).sum = C.m_nq
      rw [List.take_of_length_le (by rw [hc.nqs, List.length_map]), hc.nq_sum]
    · show (C.lg_nvs.take C.liegroups.length).sum = C.m_nv
      rw [List.take_of_length_le (by rw [hc.nvs, List.length_map]), hc.nv_sum]
  · intro k lg hk
    exact ⟨difference_entry hc hq0' hq1' hd' hk, integrate_entry hc hq0' hv' hqout' hk,
      squaredDistance_entry hc hq0' hq1' 0 hk, random_entry hc g hqout' hk,
      randomConfiguration_entry hc g hq0' hq1' hqout' hk⟩
  · exact ⟨(difference_impl_ok_iff hc q0 q1 d).mpr ⟨by omega, by omega, by omega⟩,
      (integrate_impl_ok_iff hc q0 v qout).mpr ⟨by omega, by omega, by omega⟩,
      (squaredDistance_impl_ok_iff hc q0 q1).mpr ⟨by omega, by omega⟩,
      (random_impl_ok_iff hc g qout).mpr (by omega),
      (randomConfiguration_impl_ok_iff hc g q0 q1 qout).mpr ⟨by omega, by omega, by omega⟩⟩

/-- Instance of C19: the composite constructed from `planar` and `vectorSpace 3`,
with configuration vectors of length 5 and tangent vectors of length 4. -/
theorem dispatch_slices_in_range_and_tiling_witness :
    (offset_q planarTimesSpace 0 = 0 ∧ offset_v planarTimesSpace 0 = 0) ∧
    (∀ (k : Nat) (lg : LieGroupGeneric Int Nat), planarTimesSpace.liegroups[k]? = some lg →
      offset_q planarTimesSpace (k + 1) = offset_q planarTimesSpace k + lg.nq ∧
      offset_v planarTimesSpace (k + 1) = offset_v planarTimesSpace k + lg.nv) ∧
    (∀ (k : Nat) (lg : LieGroupGeneric Int Nat), planarTimesSpace.liegroups[k]? = some lg →
      offset_q planarTimesSpace k + lg.nq ≤ planarTimesSpace.nq ∧
      offset_v planarTimesSpace k + lg.nv ≤ planarTimesSpace.nv) ∧
    (∀ (j k : Nat) (lj : LieGroupGeneric Int Nat), j < k →
      planarTimesSpace.liegroups[j]? = some lj →
      offset_q planarTimesSpace j + lj.nq ≤ offset_q planarTimesSpace k ∧
      offset_v planarTimesSpace j + lj.nv ≤ offset_v planarTimesSpace k) ∧
    (offset_q planarTimesSpace planarTimesSpace.liegroups.length = planarTimesSpace.nq ∧
      offset_v planarTimesSpace planarTimesSpace.liegroups.length = planarTimesSpace.nv) ∧
    (∀ (k : Nat) (lg : LieGroupGeneric Int Nat), planarTimesSpace.liegroups[k]? = some lg →
      (∃ dk dk1,
        difference_loop [1, 0, 0, 0, 0] [0, 1, 1, 1, 1]
          (planarTimesSpace.liegroups.take k) (planarTimesSpace.lg_nqs.take k)
          (planarTimesSpace.lg_nvs.take k) 0 0 [9, 9, 9, 9] = .ok dk ∧
        difference_step lg lg.nq lg.nv
          (offset_q planarTimesSpace k) (offset_v planarTimesSpace k)
          [1, 0, 0, 0, 0] [0, 1, 1, 1, 1] dk = some dk1 ∧
        difference_loop [1, 0, 0, 0, 0] [0, 1, 1, 1, 1]
          (planarTimesSpace.liegroups.take (k + 1)) (planarTimesSpace.lg_nqs.take (k + 1))
          (planarTimesSpace.lg_nvs.take (k + 1)) 0 0 [9, 9, 9, 9] = .ok dk1) ∧
      (∃ ok ok1,
        integrate_loop [1, 0, 0, 0, 0] [2, 1, 1, 1]
          (planarTimesSpace.liegroups.take k) (planarTimesSpace.lg_nqs.take k)
          (planarTimesSpace.lg_nvs.take k) 0 0 [9, 9, 9, 9, 9] = .ok ok ∧
        integrate_step lg lg.nq lg.nv
          (offset_q planarTimesSpace k) (offset_v planarTimesSpace k)
          [1, 0, 0, 0, 0] [2, 1, 1, 1] ok = some ok1 ∧
        integrate_loop [1, 0, 0, 0, 0] [2, 1, 1, 1]
          (planarTimesSpace.liegroups.take (k + 1)) (planarTimesSpace.lg_nqs.take (k + 1))
          (planarTimesSpace.lg_nvs.take (k + 1)) 0 0 [9, 9, 9, 9, 9] = .ok ok1) ∧
      (∃ acc a b,
        squaredDistance_loop [1, 0, 0, 0, 0] [0, 1, 1, 1, 1]
          (planarTimesSpace.liegroups.take k) (planarTimesSpace.lg_nqs.take k) 0 0
          = .ok acc ∧
        segment [1, 0, 0, 0, 0] (offset_q planarTimesSpace k) lg.nq = some a ∧
        segment [0, 1, 1, 1, 1] (offset_q planarTimesSpace k) lg.nq = some b ∧
        squaredDistance_loop [1, 0, 0, 0, 0] [0, 1, 1, 1, 1]
          (planarTimesSpace.liegroups.take (k + 1)) (planarTimesSpace.lg_nqs.take (k + 1))
          0 0 = .ok (acc + lg.squaredDistance a b)) ∧
      (∃ sk sk1,
        random_loop (planarTimesSpace.liegroups.take k) (planarTimesSpace.lg_nqs.take k)
          0 ([9, 9, 9, 9, 9], 0) = .ok sk ∧
        random_step lg lg.nq (offset_q planarTimesSpace k) sk = some sk1 ∧
        random_loop (planarTimesSpace.liegroups.take (k + 1))
          (planarTimesSpace.lg_nqs.take (k + 1)) 0 ([9, 9, 9, 9, 9], 0) = .ok sk1) ∧
      (∃ sk sk1,
        randomConfiguration_loop [1, 0, 0, 0, 0] [0, 1, 1, 1, 1]
          (planarTimesSpace.liegroups.take k) (planarTimesSpace.lg_nqs.take k)
          0 ([9, 9, 9, 9, 9], 0) = .ok sk ∧
        randomConfiguration_step lg lg.nq (offset_q planarTimesSpace k)
          [1, 0, 0, 0, 0] [0, 1, 1, 1, 1] sk = some sk1 ∧
        randomConfiguration_loop [1, 0, 0, 0, 0] [0, 1, 1, 1, 1]
          (planarTimesSpace.liegroups.take (k + 1)) (planarTimesSpace.lg_nqs.take (k + 1))
          0 ([9, 9, 9, 9, 9], 0) = .ok sk1)) ∧
    ((∃ r, difference_impl planarTimesSpace [1, 0, 0, 0, 0] [0, 1, 1, 1, 1] [9, 9, 9, 9]
        = .ok r) ∧
      (∃ r, integrate_impl planarTimesSpace [1, 0, 0, 0, 0] [2, 1, 1, 1] [9, 9, 9, 9, 9]
        = .ok r) ∧
      (∃ r, squaredDistance_impl planarTimesSpace [1, 0, 0, 0, 0] [0, 1, 1, 1, 1] = .ok r) ∧
      (∃ r, random_impl planarTimesSpace 0 [9, 9, 9, 9, 9] = .ok r) ∧
      (∃ r, randomConfiguration_impl planarTimesSpace 0 [1, 0, 0, 0, 0] [0, 1, 1, 1, 1]
        [9, 9, 9, 9, 9] = .ok r)) :=
  dispatch_slices_in_range_and_tiling planarTimesSpace
    (Reachable.append _ (Reachable.append _ Reachable.ctor)) 0
    [1, 0, 0, 0, 0] [0, 1, 1, 1, 1] [9, 9, 9, 9, 9] [2, 1, 1, 1] [9, 9, 9, 9]
    (by decide) (by decide) (by decide) (by decide) (by decide)

/-- C20. For every composite `C` a program can hold that has at least one entry, and
every handle `h`: `C * S`, with `S` the one-entry composite constructed from `h`,
returns exactly the state of `C` after `C.append(h)` - the same handles, cached
per-entry dimensions, `nq`, `nv`, name and neutral vector. -/
theorem append_is_product_by_singleton [Zero Scalar]
    (C : CartesianProductOperationVariantTpl Scalar Gen) (hC : Reachable C)
    (hne : C.liegroups.length > 0) (h : LieGroupGeneric Scalar Gen) :
    ∃ R, C.product (ctor1 h) = some R ∧
      R.liegroups = (C.append h).liegroups ∧
      R.lg_nqs = (C.append h).lg_nqs ∧ R.lg_nvs = (C.append h).lg_nvs ∧
      R.nq = (C.append h).nq ∧ R.nv = (C.append h).nv ∧
      R.name = (C.append h).name ∧ R.neutral = (C.append h).neutral ∧
      R = C.append h :=
  ⟨C.append h, product_singleton_eq_append hC.consistent hne h,
    rfl, rfl, rfl, rfl, rfl, rfl, rfl, rfl⟩

/-- Instance of C20: `C` the one-entry composite of `planar`, `h = vectorSpace 3`. -/
theorem append_is_product_by_singleton_witness :
    ∃ R, (ctor1 planar).product (ctor1 (vectorSpace 3)) = some R ∧
      R.liegroups = ((ctor1 planar).append (vectorSpace 3)).liegroups ∧
      R.lg_nqs = ((ctor1 planar).append (vectorSpace 3)).lg_nqs ∧
      R.lg_nvs = ((ctor1 planar).append (vectorSpace 3)).lg_nvs ∧
      R.nq = ((ctor1 planar).append (vectorSpace 3)).nq ∧
      R.nv = ((ctor1 planar).append (vectorSpace 3)).nv ∧
      R.name = ((ctor1 planar).append (vectorSpace 3)).name ∧
      R.neutral = ((ctor1 planar).append (vectorSpace 3)).neutral ∧
      R = (ctor1 planar).append (vectorSpace 3) :=
  append_is_product_by_singleton (ctor1 planar) (Reachable.append _ Reachable.ctor)
    (by decide) (vectorSpace 3)

end pinocchio
